import Mathlib

/-!
GoShare: path containment, listing order and the upload flow.

A shallow embedding of `main.go` of GoShare, a small HTTP file-sharing server.

* Part I embeds the program: the `ItemsSort` ordering, and the three request
  handlers `DirHandler`, `DownloadHandler` and `UploadHandler` as functions
  from a request and a description of the outside world to the trace of
  observable steps the handler performs.
* The Go standard-library functions the handlers call (`filepath.Clean`,
  `filepath.Join`, `filepath.Base`, `filepath.Rel`, `filepath.HasPrefix`,
  `sort.Sort`) are embedded from their implementations (Unix, Go 1.19 and later).
* Part II proves the properties.

Go strings are modelled as lists of characters.  The separator `/` and the
dot are ASCII, so the byte view and the character view of a path agree on
where elements start and end, and Go's bytewise string order agrees with the
order by code point on UTF-8 text.
-/

namespace GoShare

/-! ## Part I.a: strings -/

/-- A Go string. -/
abbrev GoString := List Char

/-- The constant `filepath.Separator` on Unix. -/
def Separator : Char := '/'

/-- The function `os.IsPathSeparator` on Unix. -/
def os.IsPathSeparator (c : Char) : Bool := c == Separator

/-- Go's `a < b` on strings: lexicographic order, shorter string first on a tie. -/
def strLess : GoString → GoString → Bool
  | [], [] => false
  | [], _ :: _ => true
  | _ :: _, [] => false
  | a :: as, b :: bs =>
    if a.toNat < b.toNat then true
    else if b.toNat < a.toNat then false
    else strLess as bs

/-- The function `strings.ToLower` restricted to ASCII text: `A`..`Z` become
`a`..`z`, every other character is kept.  The general theorems below take the
case-folding function as a parameter `lower`; this instance evaluates the
examples. -/
def asciiToLower (s : GoString) : GoString := s.map Char.toLower

/-- The function `strings.HasPrefix(s, pre)`: `s` begins with `pre`. -/
def strings.HasPrefix (s pre : GoString) : Bool := pre.isPrefixOf s

/-- The function `strings.Join(elems, sep)`: the first element, then the
separator and the next element for each one that follows. -/
def strings.Join : List GoString → GoString → GoString
  | [], _ => []
  | [a], _ => a
  | a :: b :: rest, sep => a ++ sep ++ strings.Join (b :: rest) sep

/-! ## Part I.b: `ItemsSort` (main.go, lines 100-115) and `sort.Sort` -/

/-- The part of `os.FileInfo` the program reads. -/
structure FileInfo where
  /-- The method `Name()`. -/
  Name : GoString
  /-- The method `IsDir()`. -/
  IsDir : Bool
  /-- The method `Size()`. -/
  Size : Nat
  deriving DecidableEq, Repr

/-- The type `ItemsSort []os.FileInfo`. -/
abbrev ItemsSort := List FileInfo

/-- The method `ItemsSort.Len`. -/
def ItemsSort.Len (is : ItemsSort) : Nat := is.length

/-- The body of `ItemsSort.Less` on the two entries `is[i]` and `is[j]`:
```go
if is[i].IsDir() != is[j].IsDir() { return is[i].IsDir() }
return strings.ToLower(is[i].Name()) < strings.ToLower(is[j].Name())
``` -/
def lessEntry (lower : GoString → GoString) (a b : FileInfo) : Bool :=
  if a.IsDir != b.IsDir then a.IsDir
  else strLess (lower a.Name) (lower b.Name)

/-- The method `ItemsSort.Less(i, j)`.  Go panics on an index out of range;
`sort.Sort` only passes indices below `Len()`. -/
def ItemsSort.Less (lower : GoString → GoString) (is : ItemsSort) (i j : Nat) : Bool :=
  match is[i]?, is[j]? with
  | some a, some b => lessEntry lower a b
  | _, _ => false

/-- The method `ItemsSort.Swap(i, j)`: `is[i], is[j] = is[j], is[i]`. -/
def ItemsSort.Swap (is : ItemsSort) (i j : Nat) : ItemsSort :=
  match is[i]?, is[j]? with
  | some a, some b => (is.set i b).set j a
  | _, _ => is

/-- The function `bits.Len` by halving: `fuel` bounds the number of halvings. -/
def bits.lenLoop : Nat → Nat → Nat
  | 0, _ => 0
  | fuel + 1, x => if x = 0 then 0 else bits.lenLoop fuel (x / 2) + 1

/-- The function `bits.Len(x)`: the number of bits needed to write `x`, 0 for 0. -/
def bits.Len (x : Nat) : Nat := bits.lenLoop x x

/-- The inner loop of Go's `insertionSort`:
`for j := i; j > a && data.Less(j, j-1); j-- { data.Swap(j, j-1) }`. -/
def sort.sinkLeft (lower : GoString → GoString) (a : Nat) : ItemsSort → Nat → ItemsSort
  | data, 0 => data
  | data, j + 1 =>
    if a < j + 1 ∧ ItemsSort.Less lower data (j + 1) j = true then
      sort.sinkLeft lower a (ItemsSort.Swap data (j + 1) j) j
    else data

/-- The outer loop of Go's `insertionSort`, `for i := a + 1; i < b; i++`, with
`k` iterations left. -/
def sort.insertionLoop (lower : GoString → GoString) (a : Nat) :
    Nat → ItemsSort → Nat → ItemsSort
  | 0, data, _ => data
  | k + 1, data, i => sort.insertionLoop lower a k (sort.sinkLeft lower a data i) (i + 1)

/-- The function `insertionSort(data, a, b)` of package `sort`. -/
def sort.insertionSort (lower : GoString → GoString) (data : ItemsSort) (a b : Nat) :
    ItemsSort :=
  sort.insertionLoop lower a (b - (a + 1)) data (a + 1)

/-- The loop of `siftDown(data, lo, hi, first)` at the node `root`:
```go
child := 2*root + 1
if child >= hi { return }
if child+1 < hi && data.Less(first+child, first+child+1) { child++ }
if !data.Less(first+root, first+child) { return }
data.Swap(first+root, first+child)
root = child
```
The node index grows in every round, so `hi` rounds suffice. -/
def sort.siftDownLoop (lower : GoString → GoString) (hi first : Nat) :
    Nat → ItemsSort → Nat → ItemsSort
  | 0, data, _ => data
  | fuel + 1, data, root =>
    let child := 2 * root + 1
    if child ≥ hi then data
    else
      let child := if child + 1 < hi ∧
          ItemsSort.Less lower data (first + child) (first + child + 1) = true
        then child + 1 else child
      if ¬ ItemsSort.Less lower data (first + root) (first + child) = true then data
      else sort.siftDownLoop lower hi first fuel
        (ItemsSort.Swap data (first + root) (first + child)) child

/-- The function `siftDown(data, lo, hi, first)`. -/
def sort.siftDown (lower : GoString → GoString) (data : ItemsSort) (lo hi first : Nat) :
    ItemsSort :=
  sort.siftDownLoop lower hi first hi data lo

/-- The first loop of `heapSort`, `for i := (hi - 1) / 2; i >= 0; i--`, with the
nodes below `k` still to do. -/
def sort.buildHeap (lower : GoString → GoString) (hi first : Nat) : Nat → ItemsSort → ItemsSort
  | 0, data => data
  | i + 1, data => sort.buildHeap lower hi first i (sort.siftDown lower data i hi first)

/-- The second loop of `heapSort`, `for i := hi - 1; i >= 0; i--`, with the
positions below `k` still to do:
`data.Swap(first, first+i); siftDown(data, lo, i, first)`. -/
def sort.popHeap (lower : GoString → GoString) (first : Nat) : Nat → ItemsSort → ItemsSort
  | 0, data => data
  | i + 1, data =>
    sort.popHeap lower first i
      (sort.siftDown lower (ItemsSort.Swap data first (first + i)) 0 i first)

/-- The function `heapSort(data, a, b)`. -/
def sort.heapSort (lower : GoString → GoString) (data : ItemsSort) (a b : Nat) : ItemsSort :=
  let first := a
  let hi := b - a
  let data := sort.buildHeap lower hi first ((hi - 1) / 2 + 1) data
  sort.popHeap lower first hi data

/-- A step of a 64-bit xorshift generator, `r ^= r << 13; r ^= r >> 7; r ^= r << 17`:
an instance of the method `Next` of the generator `xorshift` that
`breakPatterns` draws from.  The sorting functions take the method as the
parameter `next`, and what is proved of them holds for every generator. -/
def sort.xorshiftNext (r : Nat) : Nat :=
  let r := r ^^^ ((r <<< 13) % 2 ^ 64)
  let r := r ^^^ (r >>> 7)
  r ^^^ ((r <<< 17) % 2 ^ 64)

/-- The function `nextPowerOfTwo(length)`: `1 << bits.Len(length)`. -/
def sort.nextPowerOfTwo (length : Nat) : Nat := 2 ^ bits.Len length

/-- One round of the loop of `breakPatterns`, on the state of the generator
`random` and the data; `next` is the method `random.Next`:
```go
other := int(uint(random.Next()) & (modulus - 1))
if other >= length { other -= length }
data.Swap(idx-1+i, a+other)
``` -/
def sort.breakStep (next : Nat → Nat) (a length modulus idx : Nat) (s : Nat × ItemsSort)
    (i : Nat) : Nat × ItemsSort :=
  let random := next s.1
  let other := random &&& (modulus - 1)
  let other := if other ≥ length then other - length else other
  (random, ItemsSort.Swap s.2 (idx - 1 + i) (a + other))

/-- The function `breakPatterns(data, a, b)`, with `random := xorshift(length)`,
`modulus := nextPowerOfTwo(length)` and `idx := a + (length/4)*2 - 1`. -/
def sort.breakPatterns (next : Nat → Nat) (data : ItemsSort) (a b : Nat) : ItemsSort :=
  let length := b - a
  if length ≥ 8 then
    let modulus := sort.nextPowerOfTwo length
    let idx := a + (length / 4) * 2 - 1
    ([0, 1, 2].foldl (sort.breakStep next a length modulus idx) (length, data)).2
  else data

/-- The type `sortedHint`. -/
inductive sort.sortedHint where
  | unknownHint
  | increasingHint
  | decreasingHint
  deriving DecidableEq, Repr

/-- The function `order2(data, a, b, swaps)`; the result is `(x, y, swaps)`. -/
def sort.order2 (lower : GoString → GoString) (data : ItemsSort) (a b swaps : Nat) :
    Nat × Nat × Nat :=
  if ItemsSort.Less lower data b a = true then (b, a, swaps + 1) else (a, b, swaps)

/-- The function `median(data, a, b, c, swaps)`; the result is `(x, swaps)`. -/
def sort.median (lower : GoString → GoString) (data : ItemsSort) (a b c swaps : Nat) :
    Nat × Nat :=
  let r1 := sort.order2 lower data a b swaps
  let r2 := sort.order2 lower data r1.2.1 c r1.2.2
  let r3 := sort.order2 lower data r1.1 r2.1 r2.2.2
  (r3.2.1, r3.2.2)

/-- The function `medianAdjacent(data, a, swaps)`. -/
def sort.medianAdjacent (lower : GoString → GoString) (data : ItemsSort) (a swaps : Nat) :
    Nat × Nat :=
  sort.median lower data (a - 1) a (a + 1) swaps

/-- The function `choosePivot(data, a, b)`, with `shortestNinther = 50` and
`maxSwaps = 4 * 3`. -/
def sort.choosePivot (lower : GoString → GoString) (data : ItemsSort) (a b : Nat) :
    Nat × sort.sortedHint :=
  let l := b - a
  let i := a + l / 4 * 1
  let j := a + l / 4 * 2
  let k := a + l / 4 * 3
  let r : Nat × Nat :=
    if l ≥ 8 then
      if l ≥ 50 then
        let ri := sort.medianAdjacent lower data i 0
        let rj := sort.medianAdjacent lower data j ri.2
        let rk := sort.medianAdjacent lower data k rj.2
        sort.median lower data ri.1 rj.1 rk.1 rk.2
      else sort.median lower data i j k 0
    else (j, 0)
  if r.2 = 0 then (r.1, sort.sortedHint.increasingHint)
  else if r.2 = 4 * 3 then (r.1, sort.sortedHint.decreasingHint)
  else (r.1, sort.sortedHint.unknownHint)

/-- The loop of `reverseRange`: `for i < j { data.Swap(i, j); i++; j-- }`. -/
def sort.reverseLoop : Nat → ItemsSort → Nat → Nat → ItemsSort
  | 0, data, _, _ => data
  | fuel + 1, data, i, j =>
    if i < j then sort.reverseLoop fuel (ItemsSort.Swap data i j) (i + 1) (j - 1) else data

/-- The function `reverseRange(data, a, b)`. -/
def sort.reverseRange (data : ItemsSort) (a b : Nat) : ItemsSort :=
  sort.reverseLoop (b - a) data a (b - 1)

/-- The loop `for i < b && !data.Less(i, i-1) { i++ }` of `partialInsertionSort`. -/
def sort.skipOrdered (lower : GoString → GoString) (data : ItemsSort) (b : Nat) :
    Nat → Nat → Nat
  | 0, i => i
  | fuel + 1, i =>
    if i < b ∧ ¬ ItemsSort.Less lower data i (i - 1) = true then
      sort.skipOrdered lower data b fuel (i + 1)
    else i

/-- The loop of `partialInsertionSort` that shifts the greater one to the right:
`for j := i + 1; j < b; j++ { if !data.Less(j, j-1) { break }; data.Swap(j, j-1) }`. -/
def sort.shiftRight (lower : GoString → GoString) (b : Nat) : Nat → ItemsSort → Nat → ItemsSort
  | 0, data, _ => data
  | fuel + 1, data, j =>
    if j < b then
      if ¬ ItemsSort.Less lower data j (j - 1) = true then data
      else sort.shiftRight lower b fuel (ItemsSort.Swap data j (j - 1)) (j + 1)
    else data

/-- The loop `for j := 0; j < maxSteps; j++` of `partialInsertionSort`, with
`steps` rounds left; `shortestShifting = 50`.  The loop that shifts the smaller
one to the left, `for j := i - 1; j >= 1; j--`, is the inner loop of the
insertion sort with the bound 0. -/
def sort.partialInsertionLoop (lower : GoString → GoString) (a b : Nat) :
    Nat → ItemsSort → Nat → ItemsSort × Bool
  | 0, data, _ => (data, false)
  | steps + 1, data, i =>
    let i := sort.skipOrdered lower data b b i
    if i = b then (data, true)
    else if b - a < 50 then (data, false)
    else
      let data := ItemsSort.Swap data i (i - 1)
      let data := if i - a ≥ 2 then sort.sinkLeft lower 0 data (i - 1) else data
      let data := if b - i ≥ 2 then sort.shiftRight lower b b data (i + 1) else data
      sort.partialInsertionLoop lower a b steps data i

/-- The function `partialInsertionSort(data, a, b)`, with `maxSteps = 5`; the
result is the data and whether the range is sorted at the end. -/
def sort.partialInsertionSort (lower : GoString → GoString) (data : ItemsSort) (a b : Nat) :
    ItemsSort × Bool :=
  sort.partialInsertionLoop lower a b 5 data (a + 1)

/-- The loop `for i <= j && data.Less(i, a) { i++ }` of `partition`. -/
def sort.skipLess (lower : GoString → GoString) (data : ItemsSort) (a j : Nat) :
    Nat → Nat → Nat
  | 0, i => i
  | fuel + 1, i =>
    if i ≤ j ∧ ItemsSort.Less lower data i a = true then
      sort.skipLess lower data a j fuel (i + 1)
    else i

/-- The loop `for i <= j && !data.Less(j, a) { j-- }` of `partition`. -/
def sort.skipNotLess (lower : GoString → GoString) (data : ItemsSort) (a i : Nat) :
    Nat → Nat → Nat
  | 0, j => j
  | fuel + 1, j =>
    if i ≤ j ∧ ¬ ItemsSort.Less lower data j a = true then
      sort.skipNotLess lower data a i fuel (j - 1)
    else j

/-- The loop `for { ... }` of `partition`; the result is the data and `j` at the
`break`. -/
def sort.partitionLoop (lower : GoString → GoString) (a b : Nat) :
    Nat → ItemsSort → Nat → Nat → ItemsSort × Nat
  | 0, data, _, j => (data, j)
  | fuel + 1, data, i, j =>
    let i := sort.skipLess lower data a j b i
    let j := sort.skipNotLess lower data a i b j
    if i > j then (data, j)
    else sort.partitionLoop lower a b fuel (ItemsSort.Swap data i j) (i + 1) (j - 1)

/-- The function `partition(data, a, b, pivot)`; the result is the data, the new
index of the pivot and whether the range was partitioned already. -/
def sort.partition (lower : GoString → GoString) (data : ItemsSort) (a b pivot : Nat) :
    ItemsSort × Nat × Bool :=
  let data := ItemsSort.Swap data a pivot
  let i := sort.skipLess lower data a (b - 1) b (a + 1)
  let j := sort.skipNotLess lower data a i b (b - 1)
  if i > j then (ItemsSort.Swap data j a, j, true)
  else
    let data := ItemsSort.Swap data i j
    let r := sort.partitionLoop lower a b b data (i + 1) (j - 1)
    (ItemsSort.Swap r.1 r.2 a, r.2, false)

/-- The loop `for i <= j && !data.Less(a, i) { i++ }` of `partitionEqual`. -/
def sort.skipNotGreater (lower : GoString → GoString) (data : ItemsSort) (a j : Nat) :
    Nat → Nat → Nat
  | 0, i => i
  | fuel + 1, i =>
    if i ≤ j ∧ ¬ ItemsSort.Less lower data a i = true then
      sort.skipNotGreater lower data a j fuel (i + 1)
    else i

/-- The loop `for i <= j && data.Less(a, j) { j-- }` of `partitionEqual`. -/
def sort.skipGreater (lower : GoString → GoString) (data : ItemsSort) (a i : Nat) :
    Nat → Nat → Nat
  | 0, j => j
  | fuel + 1, j =>
    if i ≤ j ∧ ItemsSort.Less lower data a j = true then
      sort.skipGreater lower data a i fuel (j - 1)
    else j

/-- The loop `for { ... }` of `partitionEqual`; the result is the data and `i` at
the `break`. -/
def sort.partitionEqualLoop (lower : GoString → GoString) (a b : Nat) :
    Nat → ItemsSort → Nat → Nat → ItemsSort × Nat
  | 0, data, i, _ => (data, i)
  | fuel + 1, data, i, j =>
    let i := sort.skipNotGreater lower data a j b i
    let j := sort.skipGreater lower data a i b j
    if i > j then (data, i)
    else sort.partitionEqualLoop lower a b fuel (ItemsSort.Swap data i j) (i + 1) (j - 1)

/-- The function `partitionEqual(data, a, b, pivot)`; the result is the data and
the index where the elements greater than the pivot start. -/
def sort.partitionEqual (lower : GoString → GoString) (data : ItemsSort) (a b pivot : Nat) :
    ItemsSort × Nat :=
  sort.partitionEqualLoop lower a b b (ItemsSort.Swap data a pivot) (a + 1) (b - 1)

/-- The function `pdqsort(data, a, b, limit)`, with `maxInsertion = 12`.  A round
of its loop `for { ... }` either returns or goes on with a shorter range, and
the call inside the loop is on a shorter range too: the first argument bounds
the length of the range.  The flags `wasBalanced` and `wasPartitioned` are
arguments, `true` at every call of the function. -/
def sort.pdqsort (lower : GoString → GoString) (next : Nat → Nat) :
    Nat → ItemsSort → Nat → Nat → Nat → Bool → Bool → ItemsSort
  | 0, data, _, _, _, _, _ => data
  | fuel + 1, data, a, b, limit, wasBalanced, wasPartitioned =>
    let length := b - a
    if length ≤ 12 then sort.insertionSort lower data a b
    else if limit = 0 then sort.heapSort lower data a b
    else
      let data1 := if wasBalanced then data else sort.breakPatterns next data a b
      let limit1 := if wasBalanced then limit else limit - 1
      let c := sort.choosePivot lower data1 a b
      let data2 := if c.2 = sort.sortedHint.decreasingHint
        then sort.reverseRange data1 a b else data1
      let pivot := if c.2 = sort.sortedHint.decreasingHint
        then (b - 1) - (c.1 - a) else c.1
      let hint := if c.2 = sort.sortedHint.decreasingHint
        then sort.sortedHint.increasingHint else c.2
      let p := if wasBalanced ∧ wasPartitioned ∧ hint = sort.sortedHint.increasingHint
        then sort.partialInsertionSort lower data2 a b else (data2, false)
      if p.2 then p.1
      else if 0 < a ∧ ¬ ItemsSort.Less lower p.1 (a - 1) pivot = true then
        let e := sort.partitionEqual lower p.1 a b pivot
        sort.pdqsort lower next fuel e.1 e.2 b limit1 wasBalanced wasPartitioned
      else
        let q := sort.partition lower p.1 a b pivot
        let mid := q.2.1
        let leftLen := mid - a
        let rightLen := b - mid
        let balanceThreshold := length / 8
        if leftLen < rightLen then
          sort.pdqsort lower next fuel (sort.pdqsort lower next fuel q.1 a mid limit1 true true)
            (mid + 1) b limit1 (decide (leftLen ≥ balanceThreshold)) q.2.2
        else
          sort.pdqsort lower next fuel (sort.pdqsort lower next fuel q.1 (mid + 1) b limit1 true true)
            a mid limit1 (decide (rightLen ≥ balanceThreshold)) q.2.2

/-- The function `sort.Sort` (Go 1.19 and later) applied to an `ItemsSort`,
driving the methods `Len`, `Less` and `Swap` of the program; `next` is the
method `Next` of the generator of `breakPatterns`:
```go
n := data.Len()
if n <= 1 { return }
limit := bits.Len(uint(n))
pdqsort(data, 0, n, limit)
``` -/
def sort.Sort (lower : GoString → GoString) (next : Nat → Nat) (data : ItemsSort) :
    ItemsSort :=
  let n := ItemsSort.Len data
  if n ≤ 1 then data
  else sort.pdqsort lower next (n + 1) data 0 n (bits.Len n) true true

/-- The elements of a path: the pieces between separators (`a//b/` has the
elements `a`, the empty element, `b` and the empty element). -/
def filepath.elements : GoString → List GoString
  | [] => [[]]
  | c :: cs =>
    if c = Separator then [] :: filepath.elements cs
    else
      match filepath.elements cs with
      | [] => [[c]]
      | e :: es => (c :: e) :: es

/-- The output buffer of `Clean`: `out` holds the bytes written so far, the
last one first (`out.w` is its length), and `dotdot` is the index where `..`
must stop. -/
structure filepath.lazybuf where
  /-- The bytes written, most recent first. -/
  out : List Char
  /-- The index in the output where backtracking stops. -/
  dotdot : Nat
  deriving DecidableEq, Repr

/-- The loop `for out.w > dotdot && !os.IsPathSeparator(out.index(out.w)) { out.w-- }`:
`d` is the byte at index `out.w`, the one dropped last. -/
def filepath.backtrackLoop (dotdot : Nat) : Char → List Char → List Char
  | _, [] => []
  | d, c :: rs =>
    if dotdot < (c :: rs).length ∧ d ≠ Separator then filepath.backtrackLoop dotdot c rs
    else c :: rs

/-- The statement `out.w--` followed by the backtracking loop. -/
def filepath.backtrack (dotdot : Nat) : List Char → List Char
  | [] => []
  | d :: rs => filepath.backtrackLoop dotdot d rs

/-- The inner `switch` of the `..` case of `Clean`: backtrack when `out.w > dotdot`;
otherwise, when the path is not rooted, append a `..` element (after a
separator when something is written already) and move `dotdot` to the end;
a rooted path drops the element. -/
def filepath.dotdotCase (rooted : Bool) (b : filepath.lazybuf) : filepath.lazybuf :=
  if b.dotdot < b.out.length then ⟨filepath.backtrack b.dotdot b.out, b.dotdot⟩
  else if rooted then b
  else
    let o := '.' :: '.' :: (if 0 < b.out.length then Separator :: b.out else b.out)
    ⟨o, o.length⟩

/-- The default case of `Clean`, a real path element `e`: a separator is written
first `if rooted && out.w != 1 || !rooted && out.w != 0`, then the element is
copied. -/
def filepath.elementCase (rooted : Bool) (b : filepath.lazybuf) (e : GoString) :
    filepath.lazybuf :=
  let o := if (rooted && b.out.length != 1) || (!rooted && b.out.length != 0)
    then Separator :: b.out else b.out
  ⟨e.reverse ++ o, b.dotdot⟩

/-- The test `r+k == n || os.IsPathSeparator(path[r+k])` on `path[r+k:]`. -/
def filepath.endOrSep : List Char → Bool
  | [] => true
  | c :: _ => os.IsPathSeparator c

/-- The loop `for r < n { switch { ... } }` of `Clean` on the unread part
`path[r:]` of the path.  Every round moves the read index forward, so one
round for each byte and one more end the loop; the first argument bounds the
number of rounds.
* `os.IsPathSeparator(path[r])`: an empty path element, `r++`;
* `path[r] == '.'` at the end or before a separator: a `.` element, `r++`;
* `path[r] == '.' && path[r+1] == '.'` at the end or before a separator: a `..`
  element, `r += 2`;
* otherwise a real path element, copied up to the next separator or the end. -/
def filepath.cleanLoop (rooted : Bool) : Nat → List Char → filepath.lazybuf → filepath.lazybuf
  | 0, _, b => b
  | _ + 1, [], b => b
  | fuel + 1, c :: rest, b =>
    if os.IsPathSeparator c then filepath.cleanLoop rooted fuel rest b
    else if c = '.' ∧ filepath.endOrSep rest then filepath.cleanLoop rooted fuel rest b
    else if c = '.' ∧ rest.head? = some '.' ∧ filepath.endOrSep rest.tail then
      filepath.cleanLoop rooted fuel rest.tail (filepath.dotdotCase rooted b)
    else
      filepath.cleanLoop rooted fuel ((c :: rest).dropWhile (fun x => !os.IsPathSeparator x))
        (filepath.elementCase rooted b ((c :: rest).takeWhile (fun x => !os.IsPathSeparator x)))

/-- The function `filepath.Clean` (Unix: no volume name): the empty path is `.`;
a rooted path starts the buffer with the separator, `r = 1` and `dotdot = 1`;
after the loop an empty buffer becomes `.`. -/
def filepath.Clean (path : GoString) : GoString :=
  match path with
  | [] => ['.']
  | c :: cs =>
    let n := (c :: cs).length
    let b := if os.IsPathSeparator c
      then filepath.cleanLoop true n cs ⟨[Separator], 1⟩
      else filepath.cleanLoop false (n + 1) (c :: cs) ⟨[], 0⟩
    if b.out.length = 0 then ['.'] else b.out.reverse

/-- The function `filepath.Join` (Unix): the elements from the first non-empty
one on are joined with the separator and cleaned; no non-empty element gives
the empty string. -/
def filepath.Join : List GoString → GoString
  | [] => []
  | e :: es =>
    if e = [] then filepath.Join es
    else filepath.Clean (strings.Join (e :: es) [Separator])

/-- The function `filepath.HasPrefix`, which on Unix is `strings.HasPrefix`. -/
def filepath.HasPrefix (p pre : GoString) : Bool := strings.HasPrefix p pre

/-- The function `filepath.Base`: the last element of the path, after trailing
separators are removed; `.` for the empty path and the separator for a path
of separators only. -/
def filepath.Base (path : GoString) : GoString :=
  if path = [] then ['.']
  else
    let stripped := path.reverse.dropWhile os.IsPathSeparator
    let last := (stripped.takeWhile (fun c => !os.IsPathSeparator c)).reverse
    if last = [] then [Separator] else last

/-- The element-matching loop of `Rel` on the unread parts `base[b0:]` and
`targ[t0:]`.  The result is `(base[b0:bi], base[b0:], targ[t0:])` when the
loop ends, and `none` when the fuel runs out first. -/
def filepath.relLoop : Nat → GoString → GoString → Option (GoString × GoString × GoString)
  | 0, _, _ => none
  | fuel + 1, b, t =>
    if b = [] ∨ t = [] then some ([], b, t)
    else
      let be := b.takeWhile (fun c => !os.IsPathSeparator c)
      let te := t.takeWhile (fun c => !os.IsPathSeparator c)
      if te ≠ be then some (be, b, t)
      else filepath.relLoop fuel ((b.dropWhile (fun c => !os.IsPathSeparator c)).drop 1)
        ((t.dropWhile (fun c => !os.IsPathSeparator c)).drop 1)

/-- The end of `Rel`, after the loop has stopped with `cur = base[b0:bi]`,
`bRest = base[b0:]` and `tRest = targ[t0:]`: an error when `cur` is `..`; when
base elements are left, one `..` for each of them and then the rest of the
target; otherwise the rest of the target. -/
def filepath.relResult (cur bRest tRest : GoString) : Option GoString :=
  if cur = ['.', '.'] then none
  else if bRest ≠ [] then
    let seps := bRest.count Separator
    let ups := ['.', '.'] ++ (List.replicate seps [Separator, '.', '.']).flatten
    some (if tRest ≠ [] then ups ++ Separator :: tRest else ups)
  else some tRest

/-- The function `filepath.Rel` (Unix); `none` is the error result. -/
def filepath.Rel (basepath targpath : GoString) : Option GoString :=
  let base := filepath.Clean basepath
  let targ := filepath.Clean targpath
  if targ = base then some ['.']
  else
    let base := if base = ['.'] then [] else base
    let baseSlashed : Bool := base.head? = some Separator
    let targSlashed : Bool := targ.head? = some Separator
    if baseSlashed != targSlashed then none
    else
      match filepath.relLoop (base.length + 1) base targ with
      | none => none
      | some (cur, bRest, tRest) => filepath.relResult cur bRest tRest

/-! ## Part I.d: the request handlers (main.go, lines 117-206) -/

/-- The outside world as one request sees it. -/
structure World where
  /-- The global `AbsBaseDir`, set once by `filepath.Abs(*BaseDir)`. -/
  AbsBaseDir : GoString
  /-- Whether `os.Open(name)` succeeds. -/
  openOk : GoString → Bool
  /-- The result of `f.Readdir(0)` on the directory `name`, `none` for an error. -/
  readdir : GoString → Option (List FileInfo)
  /-- Whether `os.Create(name)` succeeds. -/
  createOk : GoString → Bool
  /-- Whether `io.Copy(of, f)` copies the upload to its end without an error. -/
  copyOk : Bool
  /-- The method `Next` of the generator `xorshift` of package `sort`, as the Go
  release that built the server has it. -/
  xorshiftNext : Nat → Nat

/-- An upload request: the form value `dir`, and the `Filename` of the header
that `r.FormFile("file")` returns (`none` when it returns an error, with a
nil file and a nil header). -/
structure UploadRequest where
  /-- The value `r.FormValue("dir")`. -/
  dir : GoString
  /-- The `Filename` of the file header, when `FormFile` succeeds. -/
  file : Option GoString

/-- An observable step of a handler. -/
inductive Step where
  /-- The call `http.Error(w, msg, code)`. -/
  | httpError (msg : String) (code : Nat)
  /-- The call `os.Open(name)` and whether it succeeded. -/
  | osOpen (name : GoString) (ok : Bool)
  /-- The call `f.Readdir(0)` and whether it succeeded. -/
  | readdir (name : GoString) (ok : Bool)
  /-- The call `DirTemplate.Execute` with the fields `Items` and `Dir`. -/
  | executeTemplate (items : ItemsSort) (dir : GoString)
  /-- The call `w.Header().Add(key, value)`. -/
  | addHeader (key : String) (value : GoString)
  /-- The call `io.Copy(w, f)` of a download. -/
  | copyToResponse (name : GoString)
  /-- The call `r.FormFile("file")` and whether it succeeded. -/
  | formFile (ok : Bool)
  /-- The call `os.Create(name)` and whether it succeeded. -/
  | osCreate (name : GoString) (ok : Bool)
  /-- The call `io.Copy(of, f)` of an upload and whether it ran to the end. -/
  | copyToFile (name : GoString) (ok : Bool)
  /-- The call `http.Redirect(w, r, url, code)`. -/
  | redirect (url : GoString) (code : Nat)
  /-- A deferred `Close()` running when the handler returns. -/
  | close (name : GoString)
  /-- A use of the nil file or nil file header: the Go run time panics and the
  handler is abandoned. -/
  | nilDereference
  deriving DecidableEq, Repr

/-- The constant `http.StatusBadRequest`. -/
def StatusBadRequest : Nat := 400

/-- The constant `http.StatusFound`. -/
def StatusFound : Nat := 302

/-- The response every handler gives when the containment check fails. -/
def outsideBase : Step :=
  Step.httpError "Error: Attempted access outside of base directory" StatusBadRequest

/-- The handler `DirHandler`; `param` is `ps.ByName("dir")`. -/
def DirHandler (lower : GoString → GoString) (w : World) (param : GoString) : List Step :=
  let dir := filepath.Join [w.AbsBaseDir, param]
  let dir := filepath.Clean dir
  if !filepath.HasPrefix dir w.AbsBaseDir then [outsideBase]
  else if !w.openOk dir then
    [Step.osOpen dir false, Step.httpError "Error: Unable to open dir" StatusBadRequest]
  else
    match w.readdir dir with
    | none =>
      [Step.osOpen dir true, Step.readdir dir false,
        Step.httpError "Error: Unable to read dir" StatusBadRequest, Step.close dir]
    | some items =>
      let rel := (filepath.Rel w.AbsBaseDir dir).getD []
      let itemssort := sort.Sort lower w.xorshiftNext items
      [Step.osOpen dir true, Step.readdir dir true, Step.executeTemplate itemssort rel,
        Step.close dir]

/-- The handler `DownloadHandler`; `param` is `ps.ByName("file")`. -/
def DownloadHandler (w : World) (param : GoString) : List Step :=
  let file := filepath.Join [w.AbsBaseDir, param]
  let file := filepath.Clean file
  if !filepath.HasPrefix file w.AbsBaseDir then [outsideBase]
  else if !w.openOk file then
    [Step.osOpen file false, Step.httpError "Error: Unable to open file" StatusBadRequest]
  else
    [Step.osOpen file true,
      Step.addHeader "Content-Disposition"
        ("attachment; filename=".toList ++ [Char.ofNat 34] ++ filepath.Base file ++ [Char.ofNat 34]),
      Step.addHeader "Content-Type" "application/octet-stream".toList,
      Step.copyToResponse file, Step.close file]

/-- The destination of an upload (main.go, lines 192-194):
`file := filepath.Base(fh.Filename); file = filepath.Join(dir, file)`. -/
def uploadDestination (dir filename : GoString) : GoString :=
  filepath.Join [dir, filepath.Base filename]

/-- The handler `UploadHandler`.  When `FormFile` fails the handler writes the
error and, having no `return` there, runs on into `defer f.Close()` and
`fh.Filename` with `f` and `fh` nil. -/
def UploadHandler (w : World) (r : UploadRequest) : List Step :=
  let dir := filepath.Join [w.AbsBaseDir, r.dir]
  let dir := filepath.Clean dir
  if !filepath.HasPrefix dir w.AbsBaseDir then [outsideBase]
  else
    match r.file with
    | none =>
      [Step.formFile false,
        Step.httpError "Error occured while trying to upload file" StatusBadRequest,
        Step.nilDereference]
    | some filename =>
      let file := uploadDestination dir filename
      if !w.createOk file then
        [Step.formFile true, Step.osCreate file false,
          Step.httpError "Error: Unable to open file" StatusBadRequest,
          Step.close filename]
      else
        let rel := (filepath.Rel w.AbsBaseDir dir).getD []
        [Step.formFile true, Step.osCreate file true, Step.copyToFile file w.copyOk,
          Step.redirect ("/dir/".toList ++ rel) StatusFound,
          Step.close file, Step.close filename]

/-! ## Part I.e: vocabulary of the properties -/

/-- A clean absolute directory, as `filepath.Abs` returns it: it starts with the
separator and `Clean` leaves it unchanged. -/
def IsCleanAbs (p : GoString) : Prop :=
  p.head? = some Separator ∧ filepath.Clean p = p

/-- A proper name: a path element that is not empty, not `.` and not `..`. -/
def IsName (e : GoString) : Prop :=
  e ≠ [] ∧ e ≠ ['.'] ∧ e ≠ ['.', '.']

/-- The path `x` is a descendant of the directory `base`: `base`, a separator
(the one `base` ends in when it is the root) and then something more. -/
def isDescendant (base x : GoString) : Bool :=
  if base = [Separator] then strings.HasPrefix x base && x != base
  else strings.HasPrefix x (base ++ [Separator]) && x != base ++ [Separator]

/-- Separator-aware containment: `x` is `base` or a descendant of it. -/
def isWithin (base x : GoString) : Bool :=
  x == base || isDescendant base x

/-- A handler answered with a client error. -/
def answersError (t : List Step) : Prop :=
  ∃ msg, Step.httpError msg StatusBadRequest ∈ t

/-- A handler answered with a redirect. -/
def answersRedirect (t : List Step) : Prop :=
  ∃ url, Step.redirect url StatusFound ∈ t

/-! ## Part I.f: definitions used in the statements and proofs -/

/-- The entry at index `k` of the data (an empty entry beyond the end). -/
def valAt (d : ItemsSort) (k : Nat) : FileInfo := d.getD k ⟨[], false, 0⟩

/-- The data `d2` is `d` with the entries of the range `[a, b)` rearranged: a
permutation that leaves every index outside the range alone. -/
def Win (a b : Nat) (d d2 : ItemsSort) : Prop :=
  d2.Perm d ∧ ∀ k, (k < a ∨ b ≤ k) → d2[k]? = d[k]?

/-- The assumption `pdqsort` makes on the entry before its range: when the range
does not start the data, no entry of the range is `Less` than the entry at
`a - 1`. -/
def Barrier (lower : GoString → GoString) (a b : Nat) (d : ItemsSort) : Prop :=
  a = 0 ∨ ∀ k, a ≤ k → k < b → lessEntry lower (valAt d k) (valAt d (a - 1)) = false

/-- What `partition` leaves: the pivot `m` at `mid`, before it entries `Less` than
the pivot, after it entries that are not. -/
def PartFacts (lower : GoString → GoString) (a b mid : Nat) (m : FileInfo) (d : ItemsSort) :
    Prop :=
  valAt d mid = m ∧
  (∀ k, a ≤ k → k < mid → lessEntry lower (valAt d k) m = true) ∧
  (∀ k, mid < k → k < b → lessEntry lower (valAt d k) m = false)

/-- The absolute path with the given elements. -/
def absPath (segs : List GoString) : GoString :=
  Separator :: strings.Join segs [Separator]

/-- What one round of the loop of `Clean` does to the elements written so far,
for a rooted path. -/
def normStep (stack : List GoString) (e : GoString) : List GoString :=
  if e = [] then stack
  else if e = ['.'] then stack
  else if e = ['.', '.'] then stack.dropLast
  else stack ++ [e]

/-- Elements that are proper names free of separators. -/
def Names (segs : List GoString) : Prop :=
  ∀ s ∈ segs, IsName s ∧ Separator ∉ s

/-- What one round of the loop of `Clean` does with the path element `e` at the
read index. -/
def cleanStep (rooted : Bool) (b : filepath.lazybuf) (e : GoString) : filepath.lazybuf :=
  if e = [] then b
  else if e = ['.'] then b
  else if e = ['.', '.'] then filepath.dotdotCase rooted b
  else filepath.elementCase rooted b e

/-- The elements the request path `p` leads to from the directory with the
elements `bs`. -/
def resolveElems (bs : List GoString) (p : GoString) : List GoString :=
  (filepath.elements p).foldl normStep bs

/-- The path every handler checks and then opens (main.go, lines 119-120,
157-158 and 179-180): `filepath.Clean(filepath.Join(AbsBaseDir, p))`. -/
def resolvePath (base p : GoString) : GoString :=
  filepath.Clean (filepath.Join [base, p])

/-- A canonical absolute path: the root, or a separator followed by elements
none of which is empty, `.` or `..`. -/
def IsCanonical (p : GoString) : Prop :=
  p = [Separator] ∨
    (p.head? = some Separator ∧ ∀ e ∈ filepath.elements p.tail, IsName e)

/-- A world with the base directory `/data` and, next to it, the directory
`/data2` holding the file `secret`. -/
def siblingWorld : World where
  AbsBaseDir := "/data".toList
  openOk := fun name => name = "/data".toList ∨ name = "/data2".toList ∨
    name = "/data2/secret".toList
  readdir := fun name =>
    if name = "/data2".toList then some [⟨"secret".toList, false, 5⟩]
    else if name = "/data".toList then some []
    else none
  createOk := fun name => name ≠ "/".toList ∧ name ≠ "/data".toList ∧ name ≠ "/data2".toList
    ∧ name ≠ "/data/sub".toList
  copyOk := true
  xorshiftNext := sort.xorshiftNext

/-- A world in which files can be created and the copy of an upload breaks off. -/
def brokenCopyWorld : World where
  AbsBaseDir := "/data".toList
  openOk := fun _ => true
  readdir := fun _ => some []
  createOk := fun _ => true
  copyOk := false
  xorshiftNext := sort.xorshiftNext

/-! ## Part II.a: the string order -/

theorem char_eq_of_toNat_le {a b : Char} (h1 : ¬ a.toNat < b.toNat) (h2 : ¬ b.toNat < a.toNat) :
    a = b := by
  have h : a.toNat = b.toNat := by omega
  exact Char.ext (UInt32.ext (by simpa [Char.toNat, UInt32.toNat] using h))

theorem strLess_irrefl (s : GoString) : strLess s s = false := by
  induction s with
  | nil => rfl
  | cons a as ih => simp [strLess, ih]

theorem strLess_trans : ∀ s t u : GoString,
    strLess s t = true → strLess t u = true → strLess s u = true
  | [], [], _, h, _ => by simp [strLess] at h
  | [], _ :: _, [], _, h => by simp [strLess] at h
  | [], _ :: _, _ :: _, _, _ => by simp [strLess]
  | _ :: _, [], _, h, _ => by simp [strLess] at h
  | _ :: _, _ :: _, [], _, h => by simp [strLess] at h
  | a :: as, b :: bs, c :: cs, h1, h2 => by
    have ih := strLess_trans as bs cs
    simp only [strLess] at h1 h2 ⊢
    split_ifs at h1 h2 ⊢ <;> first | rfl | omega | (exact ih h1 h2)

theorem strLess_connected : ∀ s t : GoString,
    strLess s t = false → strLess t s = false → s = t
  | [], [], _, _ => rfl
  | [], _ :: _, h, _ => by simp [strLess] at h
  | _ :: _, [], _, h => by simp [strLess] at h
  | a :: as, b :: bs, h1, h2 => by
    have ih := strLess_connected as bs
    simp only [strLess] at h1 h2
    by_cases h3 : a.toNat < b.toNat
    · simp [h3] at h1
    · by_cases h4 : b.toNat < a.toNat
      · simp [h4] at h2
      · simp only [h3, h4, if_false] at h1 h2
        rw [char_eq_of_toNat_le h3 h4, ih h1 h2]

theorem strLess_asymm (s t : GoString) (h : strLess s t = true) : strLess t s = false := by
  cases h2 : strLess t s with
  | false => rfl
  | true => have := strLess_trans s t s h h2; simp [strLess_irrefl] at this

theorem strLess_negTrans (s t u : GoString) (h1 : strLess s t = false)
    (h2 : strLess t u = false) : strLess s u = false := by
  cases h3 : strLess s u with
  | false => rfl
  | true =>
    cases h4 : strLess t s with
    | false =>
      have := strLess_connected s t h1 h4
      subst this; simp [h3] at h2
    | true => have := strLess_trans t s u h4 h3; simp [this] at h2

/-! ## Part II.b: `ItemsSort.Less` -/

theorem lessEntry_irrefl (lower : GoString → GoString) (a : FileInfo) :
    lessEntry lower a a = false := by
  simp [lessEntry, strLess_irrefl]

theorem lessEntry_trans (lower : GoString → GoString) (a b c : FileInfo)
    (h1 : lessEntry lower a b = true) (h2 : lessEntry lower b c = true) :
    lessEntry lower a c = true := by
  unfold lessEntry at *
  cases ha : a.IsDir <;> cases hb : b.IsDir <;> cases hc : c.IsDir <;>
    simp [ha, hb, hc] at h1 h2 ⊢ <;> exact strLess_trans _ _ _ h1 h2

theorem lessEntry_asymm (lower : GoString → GoString) (a b : FileInfo)
    (h : lessEntry lower a b = true) : lessEntry lower b a = false := by
  cases h2 : lessEntry lower b a with
  | false => rfl
  | true => have := lessEntry_trans lower a b a h h2; simp [lessEntry_irrefl] at this

theorem lessEntry_negTrans (lower : GoString → GoString) (a b c : FileInfo)
    (h1 : lessEntry lower a b = false) (h2 : lessEntry lower b c = false) :
    lessEntry lower a c = false := by
  unfold lessEntry at *
  cases ha : a.IsDir <;> cases hb : b.IsDir <;> cases hc : c.IsDir <;>
    simp [ha, hb, hc] at h1 h2 ⊢ <;> exact strLess_negTrans _ _ _ h1 h2

/-- Two entries that `Less` does not separate have the same kind and the same
lower-cased name. -/
theorem lessEntry_incomparable_iff (lower : GoString → GoString) (a b : FileInfo) :
    (lessEntry lower a b = false ∧ lessEntry lower b a = false) ↔
      (a.IsDir = b.IsDir ∧ lower a.Name = lower b.Name) := by
  unfold lessEntry
  constructor
  · rintro ⟨h1, h2⟩
    cases ha : a.IsDir <;> cases hb : b.IsDir <;> simp [ha, hb] at h1 h2 ⊢ <;>
      exact strLess_connected _ _ h1 h2
  · rintro ⟨h1, h2⟩
    simp [h1, h2, strLess_irrefl]

/-! ## Part II.c: indices, `Swap` and rearranged ranges -/

theorem Win.length {a b : Nat} {d1 d2 : ItemsSort} (h : Win a b d1 d2) :
    d2.length = d1.length := h.1.length_eq

theorem Barrier.right {lower : GoString → GoString} {a b mid : Nat} {m : FileInfo}
    {d : ItemsSort} (h : PartFacts lower a b mid m d) : Barrier lower (mid + 1) b d := by
  right
  intro k h1 h2
  rw [Nat.add_sub_cancel, h.1]
  exact h.2.2 k (by omega) h2

/-- The loop of `reverseRange` ends before its bound: a greater bound gives the
same result. -/
theorem reverseLoop_fuel : ∀ (fuel fuel2 : Nat) (d : ItemsSort) (i j : Nat),
    j + 1 - i ≤ 2 * fuel → j + 1 - i ≤ 2 * fuel2 →
      sort.reverseLoop fuel d i j = sort.reverseLoop fuel2 d i j
  | 0, 0, _, _, _, _, _ => rfl
  | 0, fuel2 + 1, d, i, j, h, _ => by
    rw [sort.reverseLoop, sort.reverseLoop, if_neg (by omega)]
  | fuel + 1, 0, d, i, j, _, h => by
    rw [sort.reverseLoop, sort.reverseLoop, if_neg (by omega)]
  | fuel + 1, fuel2 + 1, d, i, j, h, h2 => by
    rw [sort.reverseLoop, sort.reverseLoop]
    by_cases hij : i < j
    · rw [if_pos hij, if_pos hij]
      exact reverseLoop_fuel fuel fuel2 _ _ _ (by omega) (by omega)
    · rw [if_neg hij, if_neg hij]

/-- The loop of `partialInsertionSort` that shifts to the right ends before its
bound: a greater bound gives the same result. -/
theorem shiftRight_fuel (lower : GoString → GoString) (b : Nat) :
    ∀ (fuel fuel2 : Nat) (d : ItemsSort) (j : Nat), b - j ≤ fuel → b - j ≤ fuel2 →
      sort.shiftRight lower b fuel d j = sort.shiftRight lower b fuel2 d j
  | 0, 0, _, _, _, _ => rfl
  | 0, fuel2 + 1, d, j, h, _ => by
    rw [sort.shiftRight, sort.shiftRight, if_neg (by omega)]
  | fuel + 1, 0, d, j, _, h => by
    rw [sort.shiftRight, sort.shiftRight, if_neg (by omega)]
  | fuel + 1, fuel2 + 1, d, j, h, h2 => by
    rw [sort.shiftRight, sort.shiftRight]
    by_cases hj : j < b
    · rw [if_pos hj, if_pos hj]
      by_cases hl : ¬ ItemsSort.Less lower d j (j - 1) = true
      · rw [if_pos hl, if_pos hl]
      · rw [if_neg hl, if_neg hl]
        exact shiftRight_fuel lower b fuel fuel2 _ _ (by omega) (by omega)
    · rw [if_neg hj, if_neg hj]

/-- Claim C4, as amended. Two entries of different kinds, or with different
lower-cased names, are separated by `Less` in exactly one direction. -/
theorem C4_less_total_up_to_case (lower : GoString → GoString) (a b : FileInfo)
    (h : a.IsDir ≠ b.IsDir ∨ lower a.Name ≠ lower b.Name) :
    (lessEntry lower a b = true ∧ lessEntry lower b a = false) ∨
      (lessEntry lower a b = false ∧ lessEntry lower b a = true) := by
  cases h1 : lessEntry lower a b with
  | true => exact Or.inl ⟨rfl, lessEntry_asymm lower a b h1⟩
  | false =>
    cases h2 : lessEntry lower b a with
    | true => exact Or.inr ⟨rfl, rfl⟩
    | false =>
      have := (lessEntry_incomparable_iff lower a b).1 ⟨h1, h2⟩
      rcases h with h | h
      · exact absurd this.1 h
      · exact absurd this.2 h

/-- Witness for claim C4 as amended: the entries `B.txt` and `a.txt` of one
directory are separated in exactly one direction. -/
theorem C4_less_total_up_to_case_witness :
    (lessEntry asciiToLower ⟨"a.txt".toList, false, 1⟩ ⟨"B.txt".toList, false, 2⟩ = true ∧
      lessEntry asciiToLower ⟨"B.txt".toList, false, 2⟩ ⟨"a.txt".toList, false, 1⟩ = false) ∨
    (lessEntry asciiToLower ⟨"a.txt".toList, false, 1⟩ ⟨"B.txt".toList, false, 2⟩ = false ∧
      lessEntry asciiToLower ⟨"B.txt".toList, false, 2⟩ ⟨"a.txt".toList, false, 1⟩ = true) :=
  C4_less_total_up_to_case asciiToLower ⟨"a.txt".toList, false, 1⟩ ⟨"B.txt".toList, false, 2⟩
    (Or.inr (by decide))

/-- Counterexample to claim C4 as stated. The files `A` and `a` have different names and `Less`
holds in neither direction. -/
theorem C4_case_variants_compare_equal :
    (⟨"A".toList, false, 1⟩ : FileInfo).Name ≠ (⟨"a".toList, false, 2⟩ : FileInfo).Name ∧
    lessEntry asciiToLower ⟨"A".toList, false, 1⟩ ⟨"a".toList, false, 2⟩ = false ∧
    lessEntry asciiToLower ⟨"a".toList, false, 2⟩ ⟨"A".toList, false, 1⟩ = false ∧
    ItemsSort.Less asciiToLower [⟨"A".toList, false, 1⟩, ⟨"a".toList, false, 2⟩] 0 1 = false ∧
    ItemsSort.Less asciiToLower [⟨"A".toList, false, 1⟩, ⟨"a".toList, false, 2⟩] 1 0 = false := by
  decide

/-- Claim C9. `ItemsSort.Less` is a strict weak ordering of directory entries:
irreflexive, asymmetric, transitive, and with a transitive incomparability. -/
theorem C9_less_strict_weak_order (lower : GoString → GoString) :
    (∀ a, lessEntry lower a a = false) ∧
    (∀ a b, lessEntry lower a b = true → lessEntry lower b a = false) ∧
    (∀ a b c, lessEntry lower a b = true → lessEntry lower b c = true →
      lessEntry lower a c = true) ∧
    (∀ a b c, (lessEntry lower a b = false ∧ lessEntry lower b a = false) →
      (lessEntry lower b c = false ∧ lessEntry lower c b = false) →
      (lessEntry lower a c = false ∧ lessEntry lower c a = false)) ∧
    (∀ (is : ItemsSort) (i j : Nat) (hi : i < is.length) (hj : j < is.length),
      ItemsSort.Less lower is i j = lessEntry lower is[i] is[j]) := by
  refine ⟨lessEntry_irrefl lower, lessEntry_asymm lower, lessEntry_trans lower, ?_, ?_⟩
  · intro a b c h1 h2
    exact ⟨lessEntry_negTrans lower a b c h1.1 h2.1, lessEntry_negTrans lower c b a h2.2 h1.2⟩
  · intro is i j hi hj
    simp [ItemsSort.Less, List.getElem?_eq_getElem, hi, hj]

/-! ## Part II.k: path elements -/

theorem elements_ne_nil (s : GoString) : filepath.elements s ≠ [] := by
  cases s with
  | nil => simp [filepath.elements]
  | cons c cs =>
    unfold filepath.elements
    split_ifs
    · simp
    · split <;> simp

theorem elements_append_sep (s t : GoString) :
    filepath.elements (s ++ Separator :: t) = filepath.elements s ++ filepath.elements t := by
  induction s with
  | nil => simp [filepath.elements]
  | cons c cs ih =>
    simp only [List.cons_append, filepath.elements]
    split_ifs with h
    · simp [ih]
    · have ih2 : filepath.elements (cs.append (Separator :: t))
          = filepath.elements cs ++ filepath.elements t := ih
      rw [ih2]
      cases h2 : filepath.elements cs with
      | nil => exact absurd h2 (elements_ne_nil cs)
      | cons e es => simp

theorem elements_sepFree (s : GoString) (h : Separator ∉ s) : filepath.elements s = [s] := by
  induction s with
  | nil => simp [filepath.elements]
  | cons c cs ih =>
    simp only [List.mem_cons, not_or] at h
    have hc : c ≠ Separator := fun e => h.1 e.symm
    simp [filepath.elements, hc, ih h.2]

theorem mem_elements_sepFree (s : GoString) : ∀ e ∈ filepath.elements s, Separator ∉ e := by
  induction s with
  | nil => simp [filepath.elements]
  | cons c cs ih =>
    unfold filepath.elements
    split_ifs with h
    · intro e he
      rcases List.mem_cons.1 he with he | he
      · simp [he]
      · exact ih e he
    · cases h2 : filepath.elements cs with
      | nil => exact absurd h2 (elements_ne_nil cs)
      | cons e es =>
        rw [h2] at ih
        intro e2 he2
        rcases List.mem_cons.1 he2 with he2 | he2
        · rw [he2]
          have := ih e (List.mem_cons_self _ _)
          simp only [List.mem_cons, not_or]
          exact ⟨fun e => h e.symm, this⟩
        · exact ih e2 (List.mem_cons_of_mem _ he2)

theorem join_append_one (s : List GoString) (x : GoString) (hs : s ≠ []) :
    strings.Join (s ++ [x]) [Separator] = strings.Join s [Separator] ++ Separator :: x := by
  induction s with
  | nil => exact absurd rfl hs
  | cons a r ih =>
    cases r with
    | nil => simp [strings.Join]
    | cons b r2 =>
      have := ih (by simp)
      simp only [List.cons_append] at this ⊢
      simp [strings.Join, this]

theorem join_cons (a : GoString) (s : List GoString) (hs : s ≠ []) :
    strings.Join (a :: s) [Separator] = a ++ Separator :: strings.Join s [Separator] := by
  cases s with
  | nil => exact absurd rfl hs
  | cons b r => simp [strings.Join]

theorem elements_join (segs : List GoString) (hne : segs ≠ [])
    (h : ∀ s ∈ segs, Separator ∉ s) :
    filepath.elements (strings.Join segs [Separator]) = segs := by
  induction segs with
  | nil => exact absurd rfl hne
  | cons a r ih =>
    cases r with
    | nil => simpa [strings.Join] using elements_sepFree a (h a (List.mem_cons_self _ _))
    | cons b r2 =>
      rw [join_cons a _ (by simp), elements_append_sep,
        elements_sepFree a (h a (List.mem_cons_self _ _)),
        ih (by simp) (fun s hs => h s (List.mem_cons_of_mem _ hs))]
      simp

/-! ## Part II.l: the loop of `Clean` works element by element -/

theorem isPathSeparator_iff (c : Char) : os.IsPathSeparator c = true ↔ c = Separator := by
  simp [os.IsPathSeparator]

theorem elements_split (s : GoString) :
    filepath.elements s = s.takeWhile (fun x => !os.IsPathSeparator x) ::
      (match s.dropWhile (fun x => !os.IsPathSeparator x) with
        | [] => []
        | _ :: r => filepath.elements r) := by
  induction s with
  | nil => simp [filepath.elements]
  | cons c cs ih =>
    by_cases hc : c = Separator
    · subst hc
      simp [filepath.elements, os.IsPathSeparator]
    · have hs : os.IsPathSeparator c = false := by simpa [os.IsPathSeparator] using hc
      rw [filepath.elements, if_neg hc, ih, List.takeWhile_cons, List.dropWhile_cons]
      simp [hs]

theorem cleanLoop_nil (rooted : Bool) (fuel : Nat) (b : filepath.lazybuf) :
    filepath.cleanLoop rooted fuel [] b = b := by
  cases fuel <;> rfl

theorem takeWhile_eq_nil_iff_endOrSep (r : List Char) :
    r.takeWhile (fun x => !os.IsPathSeparator x) = [] ↔ filepath.endOrSep r = true := by
  cases r with
  | nil => simp [filepath.endOrSep]
  | cons d r2 =>
    rw [List.takeWhile_cons]
    cases hd : os.IsPathSeparator d <;> simp [filepath.endOrSep, hd]

theorem endOrSep_cases (r : List Char) (h : filepath.endOrSep r = true) :
    r = [] ∨ ∃ r2, r = Separator :: r2 := by
  cases r with
  | nil => exact Or.inl rfl
  | cons d r2 =>
    right
    simp only [filepath.endOrSep, isPathSeparator_iff] at h
    exact ⟨r2, by rw [h]⟩

theorem foldl_cleanStep_elements_sep (rooted : Bool) (r : List Char) (b : filepath.lazybuf) :
    (filepath.elements (Separator :: r)).foldl (cleanStep rooted) b
      = (filepath.elements r).foldl (cleanStep rooted) b := by
  simp [filepath.elements, cleanStep]

/-- Folding over the elements after the end of a copied element. -/
theorem foldl_cleanStep_after (rooted : Bool) (s : List Char) (b : filepath.lazybuf) :
    (filepath.elements (s.dropWhile (fun x => !os.IsPathSeparator x))).foldl (cleanStep rooted) b
      = (match s.dropWhile (fun x => !os.IsPathSeparator x) with
          | [] => []
          | _ :: r => filepath.elements r).foldl (cleanStep rooted) b := by
  cases h : s.dropWhile (fun x => !os.IsPathSeparator x) with
  | nil => simp [filepath.elements, cleanStep]
  | cons d r =>
    have hd := List.head_dropWhile_not (fun x => !os.IsPathSeparator x) s
    simp only [h, List.head_cons] at hd
    have hd2 : d = Separator := by
      have := hd (by simp)
      simpa [os.IsPathSeparator] using this
    subst hd2
    exact foldl_cleanStep_elements_sep rooted r b

theorem cleanLoop_eq_foldl (rooted : Bool) :
    ∀ (fuel : Nat) (rest : List Char) (b : filepath.lazybuf), rest.length < fuel →
      filepath.cleanLoop rooted fuel rest b
        = (filepath.elements rest).foldl (cleanStep rooted) b
  | 0, _, _, h => absurd h (Nat.not_lt_zero _)
  | fuel + 1, [], b, _ => by simp [filepath.cleanLoop, filepath.elements, cleanStep]
  | fuel + 1, c :: r, b, h => by
    have hlen : r.length < fuel := by simpa using h
    rw [filepath.cleanLoop]
    by_cases hsep : os.IsPathSeparator c = true
    · rw [if_pos hsep, cleanLoop_eq_foldl rooted fuel r b hlen]
      rw [(isPathSeparator_iff c).1 hsep, foldl_cleanStep_elements_sep]
    rw [if_neg hsep]
    have hs : os.IsPathSeparator c = false := by simpa using hsep
    by_cases h2 : c = '.' ∧ filepath.endOrSep r = true
    · rw [if_pos h2, cleanLoop_eq_foldl rooted fuel r b hlen]
      obtain ⟨hc, he⟩ := h2
      subst hc
      rcases endOrSep_cases r he with hr | ⟨r2, hr⟩
      · subst hr; simp [filepath.elements, cleanStep, Separator]
      · subst hr; simp [filepath.elements, cleanStep, Separator]
    rw [if_neg h2]
    by_cases h3 : c = '.' ∧ r.head? = some '.' ∧ filepath.endOrSep r.tail = true
    · rw [if_pos h3]
      obtain ⟨hc, hh, he⟩ := h3
      subst hc
      cases r with
      | nil => simp at hh
      | cons d r2 =>
        simp only [List.head?_cons, Option.some.injEq] at hh
        subst hh
        simp only [List.tail_cons] at he ⊢
        rw [cleanLoop_eq_foldl rooted fuel r2 _ (by simp at hlen; omega)]
        rcases endOrSep_cases r2 he with hr | ⟨r3, hr⟩
        · subst hr; simp [filepath.elements, cleanStep, Separator]
        · subst hr; simp [filepath.elements, cleanStep, Separator]
    rw [if_neg h3]
    have hdrop : ((c :: r).dropWhile (fun x => !os.IsPathSeparator x)).length < fuel := by
      have := (@List.dropWhile_sublist _ r (fun x => !os.IsPathSeparator x)).length_le
      rw [List.dropWhile_cons]
      simp only [hs, Bool.not_false, if_true]
      omega
    rw [cleanLoop_eq_foldl rooted fuel _ _ hdrop, elements_split (c :: r), List.foldl_cons,
      foldl_cleanStep_after]
    have htake : (c :: r).takeWhile (fun x => !os.IsPathSeparator x)
        = c :: r.takeWhile (fun x => !os.IsPathSeparator x) := by
      rw [List.takeWhile_cons]; simp [hs]
    have hstep : cleanStep rooted b ((c :: r).takeWhile (fun x => !os.IsPathSeparator x))
        = filepath.elementCase rooted b
          ((c :: r).takeWhile (fun x => !os.IsPathSeparator x)) := by
      rw [htake]
      unfold cleanStep
      rw [if_neg (by simp)]
      have hdot : ¬ (c :: r.takeWhile (fun x => !os.IsPathSeparator x) = ['.']) := by
        intro hd
        simp only [List.cons.injEq] at hd
        exact h2 ⟨hd.1, (takeWhile_eq_nil_iff_endOrSep r).1 hd.2⟩
      have hdotdot : ¬ (c :: r.takeWhile (fun x => !os.IsPathSeparator x) = ['.', '.']) := by
        intro hd
        simp only [List.cons.injEq] at hd
        obtain ⟨hc, hr⟩ := hd
        cases r with
        | nil => simp at hr
        | cons d r2 =>
          rw [List.takeWhile_cons] at hr
          cases hds : os.IsPathSeparator d
          · simp only [hds, Bool.not_false, if_true, List.cons.injEq] at hr
            exact h3 ⟨hc, by simp [hr.1], by
              simpa using (takeWhile_eq_nil_iff_endOrSep r2).1 hr.2⟩
          · simp [hds] at hr
      rw [if_neg hdot, if_neg hdotdot]
    rw [hstep]

/-! ## Part II.m: `Clean` on a rooted path -/

theorem absPath_nil : absPath [] = [Separator] := rfl

theorem absPath_snoc (s : List GoString) (x : GoString) (hs : s ≠ []) :
    absPath (s ++ [x]) = absPath s ++ Separator :: x := by
  simp [absPath, join_append_one s x hs]

theorem absPath_single (x : GoString) : absPath [x] = Separator :: x := by
  simp [absPath, strings.Join]

theorem absPath_snoc_reverse (s : List GoString) (x : GoString) :
    (absPath (s ++ [x])).reverse
      = x.reverse ++ (if s = [] then [Separator] else Separator :: (absPath s).reverse) := by
  by_cases hs : s = []
  · subst hs; simp [absPath_single]
  · rw [absPath_snoc s x hs, if_neg hs]; simp

theorem absPath_length_snoc (s : List GoString) (x : GoString) (hx : x ≠ []) :
    1 < (absPath (s ++ [x])).length := by
  have h : 0 < x.length := List.length_pos.2 hx
  by_cases hs : s = []
  · subst hs; simp [absPath_single]; omega
  · rw [absPath_snoc s x hs]; simp [absPath]

theorem backtrackLoop_name (R : List Char) :
    ∀ (xs : List Char) (d : Char), d ≠ Separator → (∀ c ∈ xs, c ≠ Separator) →
      filepath.backtrackLoop 1 d (xs ++ Separator :: R) = if R = [] then [Separator] else R
  | [], d, hd, _ => by
    cases R with
    | nil => simp [filepath.backtrackLoop]
    | cons r rs => simp [filepath.backtrackLoop, hd]
  | c :: xs, d, hd, h => by
    have hc : c ≠ Separator := h c (List.mem_cons_self _ _)
    have ih := backtrackLoop_name R xs c hc (fun y hy => h y (List.mem_cons_of_mem _ hy))
    simp only [List.cons_append, filepath.backtrackLoop]
    rw [if_pos]
    · exact ih
    · exact ⟨by simp, hd⟩

theorem backtrack_absPath_snoc (s : List GoString) (x : GoString) (hx : x ≠ [])
    (hsep : Separator ∉ x) :
    filepath.backtrack 1 (absPath (s ++ [x])).reverse = (absPath s).reverse := by
  rw [absPath_snoc_reverse]
  have hr : x.reverse ≠ [] := by simpa using hx
  obtain ⟨d, xs, hd⟩ := List.exists_cons_of_ne_nil hr
  have hmem : ∀ c ∈ d :: xs, c ≠ Separator := by
    intro c hc e
    rw [← hd, List.mem_reverse] at hc
    exact hsep (e ▸ hc)
  rw [hd]
  by_cases hs : s = []
  · subst hs
    simp only [if_true, List.cons_append, filepath.backtrack]
    rw [backtrackLoop_name [] xs d (hmem d (List.mem_cons_self _ _))
      (fun c hc => hmem c (List.mem_cons_of_mem _ hc))]
    simp [absPath_nil]
  · simp only [if_neg hs, List.cons_append, filepath.backtrack]
    rw [backtrackLoop_name _ xs d (hmem d (List.mem_cons_self _ _))
      (fun c hc => hmem c (List.mem_cons_of_mem _ hc))]
    simp [absPath]

theorem names_append_one (s : List GoString) (e : GoString) (hs : Names s)
    (he : IsName e ∧ Separator ∉ e) : Names (s ++ [e]) := by
  intro x hx
  rcases List.mem_append.1 hx with hx | hx
  · exact hs x hx
  · rw [List.mem_singleton.1 hx]; exact he

theorem names_dropLast (s : List GoString) (hs : Names s) : Names s.dropLast :=
  fun x hx => hs x (List.mem_of_mem_dropLast hx)

theorem names_normStep (s : List GoString) (e : GoString) (hs : Names s)
    (he : Separator ∉ e) : Names (normStep s e) := by
  unfold normStep
  split_ifs with h1 h2 h3
  · exact hs
  · exact hs
  · exact names_dropLast s hs
  · exact names_append_one s e hs ⟨⟨h1, h2, h3⟩, he⟩

theorem cleanStep_rooted (s : List GoString) (e : GoString) (hs : Names s)
    (he : Separator ∉ e) :
    cleanStep true ⟨(absPath s).reverse, 1⟩ e
      = ⟨(absPath (normStep s e)).reverse, 1⟩ := by
  by_cases h1 : e = []
  · simp [cleanStep, normStep, h1]
  by_cases h2 : e = ['.']
  · simp [cleanStep, normStep, h2]
  by_cases h3 : e = ['.', '.']
  · -- a `..` element
    subst h3
    rcases List.eq_nil_or_concat s with hnil | ⟨s2, x, hsx⟩
    · subst hnil; simp [cleanStep, filepath.dotdotCase, normStep, absPath_nil]
    · subst hsx
      have hx := hs x (by simp)
      have hl := absPath_length_snoc s2 x hx.1.1
      rw [List.concat_eq_append]
      have hb := backtrack_absPath_snoc s2 x hx.1.1 hx.2
      simp [cleanStep, filepath.dotdotCase, normStep, hl, hb]
  · -- a real element
    rw [show normStep s e = s ++ [e] by simp [normStep, h1, h2, h3], absPath_snoc_reverse]
    by_cases hnil : s = []
    · subst hnil; simp [cleanStep, filepath.elementCase, h1, h2, h3, absPath_nil]
    · rcases List.eq_nil_or_concat s with hnil2 | ⟨s2, x, hsx⟩
      · exact absurd hnil2 hnil
      · have hx := hs x (by rw [hsx]; simp)
        have hl := absPath_length_snoc s2 x hx.1.1
        rw [← List.concat_eq_append, ← hsx] at hl
        have hl2 : ¬ (absPath s).length = 1 := by omega
        simp [cleanStep, filepath.elementCase, h1, h2, h3, hl2, hnil]

theorem foldl_cleanStep_rooted :
    ∀ (es : List GoString) (s : List GoString), Names s → (∀ e ∈ es, Separator ∉ e) →
      es.foldl (cleanStep true) ⟨(absPath s).reverse, 1⟩
        = ⟨(absPath (es.foldl normStep s)).reverse, 1⟩
  | [], _, _, _ => rfl
  | e :: es, s, hs, he => by
    simp only [List.foldl_cons]
    rw [cleanStep_rooted s e hs (he e (List.mem_cons_self _ _))]
    exact foldl_cleanStep_rooted es (normStep s e)
      (names_normStep s e hs (he e (List.mem_cons_self _ _)))
      (fun x hx => he x (List.mem_cons_of_mem _ hx))

theorem names_foldl_normStep :
    ∀ (es : List GoString) (s : List GoString), Names s → (∀ e ∈ es, Separator ∉ e) →
      Names (es.foldl normStep s)
  | [], _, hs, _ => hs
  | e :: es, s, hs, he => by
    simp only [List.foldl_cons]
    exact names_foldl_normStep es (normStep s e)
      (names_normStep s e hs (he e (List.mem_cons_self _ _)))
      (fun x hx => he x (List.mem_cons_of_mem _ hx))

theorem names_nil : Names [] := fun _ h => absurd h (List.not_mem_nil _)

/-- The function `Clean` on a rooted path, by elements. -/
theorem Clean_rooted (cs : GoString) :
    filepath.Clean (Separator :: cs) = absPath ((filepath.elements cs).foldl normStep []) := by
  have h := foldl_cleanStep_rooted (filepath.elements cs) [] names_nil (mem_elements_sepFree cs)
  rw [absPath_nil] at h
  have hsep : os.IsPathSeparator Separator = true := by simp [os.IsPathSeparator]
  simp only [filepath.Clean, hsep, if_true]
  rw [cleanLoop_eq_foldl true (Separator :: cs).length cs ⟨[Separator], 1⟩ (by simp)]
  simp only [List.reverse_cons, List.reverse_nil, List.nil_append] at h
  rw [h]
  simp [absPath]

/-! ## Part II.n: joining a request path onto the base directory -/

theorem foldl_normStep_names :
    ∀ (es st : List GoString), Names es → es.foldl normStep st = st ++ es
  | [], st, _ => by simp
  | e :: es, st, h => by
    have he := (h e (List.mem_cons_self _ _)).1
    have : normStep st e = st ++ [e] := by simp [normStep, he.1, he.2.1, he.2.2]
    simp only [List.foldl_cons, this]
    rw [foldl_normStep_names es _ (fun x hx => h x (List.mem_cons_of_mem _ hx))]
    simp

theorem normStep_nil_elem (st : List GoString) : normStep st [] = st := by
  simp [normStep]

/-- The elements of the text of an absolute path, as `Clean` reads them. -/
theorem foldl_normStep_join (bs : List GoString) (hb : Names bs) (rest : List GoString) :
    (filepath.elements (strings.Join bs [Separator]) ++ rest).foldl normStep []
      = rest.foldl normStep bs := by
  by_cases hnil : bs = []
  · subst hnil; simp [strings.Join, filepath.elements, normStep_nil_elem]
  · rw [elements_join bs hnil (fun s hs => (hb s hs).2), List.foldl_append,
      foldl_normStep_names bs [] hb]
    simp

theorem Clean_absPath (bs : List GoString) (hb : Names bs) :
    filepath.Clean (absPath bs) = absPath bs := by
  have h := foldl_normStep_join bs hb []
  simp only [List.append_nil, List.foldl_nil] at h
  rw [absPath, Clean_rooted, h]
  rfl

theorem exists_names_of_isCleanAbs (base : GoString) (h : IsCleanAbs base) :
    ∃ bs, Names bs ∧ base = absPath bs := by
  obtain ⟨h1, h2⟩ := h
  cases base with
  | nil => simp at h1
  | cons c cs =>
    simp only [List.head?_cons, Option.some.injEq] at h1
    subst h1
    rw [Clean_rooted] at h2
    exact ⟨_, names_foldl_normStep _ [] names_nil (mem_elements_sepFree cs), h2.symm⟩

theorem isCleanAbs_absPath (bs : List GoString) (hb : Names bs) : IsCleanAbs (absPath bs) :=
  ⟨rfl, Clean_absPath bs hb⟩

theorem names_resolveElems (bs : List GoString) (hb : Names bs) (p : GoString) :
    Names (resolveElems bs p) :=
  names_foldl_normStep _ bs hb (mem_elements_sepFree p)

theorem Clean_absPath_sep (bs : List GoString) (hb : Names bs) (p : GoString) :
    filepath.Clean (absPath bs ++ Separator :: p) = absPath (resolveElems bs p) := by
  rw [absPath, List.cons_append, Clean_rooted, elements_append_sep,
    foldl_normStep_join bs hb]
  rfl

/-- The function `Join` on the base directory and a request path, by elements. -/
theorem Join_absPath (bs : List GoString) (hb : Names bs) (p : GoString) :
    filepath.Join [absPath bs, p] = absPath (resolveElems bs p) := by
  have hne : absPath bs ≠ [] := by simp [absPath]
  rw [filepath.Join, if_neg hne]
  rw [show strings.Join [absPath bs, p] [Separator] = absPath bs ++ Separator :: p by
    simp [strings.Join]]
  exact Clean_absPath_sep bs hb p

/-- The path the handlers check and open: `Clean(Join(AbsBaseDir, p))`. -/
theorem resolved_absPath (bs : List GoString) (hb : Names bs) (p : GoString) :
    filepath.Clean (filepath.Join [absPath bs, p]) = absPath (resolveElems bs p) := by
  rw [Join_absPath bs hb p, Clean_absPath _ (names_resolveElems bs hb p)]

/-! ## Part II.o: the resolved path -/

theorem hasPrefix_append (a b : GoString) : strings.HasPrefix (a ++ b) a = true := by
  simp [strings.HasPrefix]

theorem join_ne_nil (es : List GoString) (hne : es ≠ []) (h : Names es) :
    strings.Join es [Separator] ≠ [] := by
  cases es with
  | nil => exact absurd rfl hne
  | cons a r =>
    have ha := (h a (List.mem_cons_self _ _)).1.1
    cases r with
    | nil => simp [strings.Join, ha]
    | cons b r2 => simp [strings.Join, ha]

theorem join_append (bs es : List GoString) (hb : bs ≠ []) (he : es ≠ []) :
    strings.Join (bs ++ es) [Separator]
      = strings.Join bs [Separator] ++ Separator :: strings.Join es [Separator] := by
  induction bs with
  | nil => exact absurd rfl hb
  | cons a r ih =>
    cases r with
    | nil => simpa [strings.Join] using join_cons a es he
    | cons b r2 =>
      have := ih (by simp)
      rw [List.cons_append, join_cons a _ (by simp), this, join_cons a _ (by simp)]
      simp

theorem absPath_append (bs es : List GoString) (hb : bs ≠ []) (he : es ≠ []) :
    absPath (bs ++ es) = absPath bs ++ Separator :: strings.Join es [Separator] := by
  simp [absPath, join_append bs es hb he]

theorem names_of_append_right (bs es : List GoString) (h : Names (bs ++ es)) : Names es :=
  fun x hx => h x (List.mem_append_right _ hx)

theorem foldl_normStep_no_dotdot :
    ∀ (q st : List GoString), ['.', '.'] ∉ q → ∃ es, q.foldl normStep st = st ++ es
  | [], st, _ => ⟨[], by simp⟩
  | e :: q, st, h => by
    simp only [List.mem_cons, not_or] at h
    have he : ¬ e = ['.', '.'] := fun x => h.1 x.symm
    have hstep : normStep st e = st ∨ normStep st e = st ++ [e] := by
      unfold normStep
      split_ifs <;> simp
    rcases hstep with hs | hs
    · obtain ⟨es, h2⟩ := foldl_normStep_no_dotdot q st h.2
      exact ⟨es, by simp [hs, h2]⟩
    · obtain ⟨es, h2⟩ := foldl_normStep_no_dotdot q (st ++ [e]) h.2
      exact ⟨e :: es, by simp [hs, h2]⟩

theorem absPath_ne_root (bs : List GoString) (hne : bs ≠ []) (h : Names bs) :
    absPath bs ≠ [Separator] := by
  have := join_ne_nil bs hne h
  simpa [absPath] using this

theorem isWithin_absPath_append (bs es : List GoString) (h : Names (bs ++ es)) :
    isWithin (absPath bs) (absPath (bs ++ es)) = true ∧
      strings.HasPrefix (absPath (bs ++ es)) (absPath bs) = true := by
  have hes := names_of_append_right bs es h
  have hbs : Names bs := fun x hx => h x (List.mem_append_left _ hx)
  by_cases he : es = []
  · subst he
    simp only [List.append_nil]
    exact ⟨by simp [isWithin], by simpa using hasPrefix_append (absPath bs) []⟩
  · have hj := join_ne_nil es he hes
    by_cases hb : bs = []
    · subst hb
      have hx : absPath ([] ++ es) = [Separator] ++ strings.Join es [Separator] := rfl
      have hp := hasPrefix_append [Separator] (strings.Join es [Separator])
      rw [hx, absPath_nil]
      refine ⟨?_, hp⟩
      rw [List.singleton_append] at hp
      simp [isWithin, isDescendant, hp, hj]
    · have hroot := absPath_ne_root bs hb hbs
      rw [absPath_append bs es hb he]
      have hp1 := hasPrefix_append (absPath bs) (Separator :: strings.Join es [Separator])
      have hp2 := hasPrefix_append (absPath bs ++ [Separator]) (strings.Join es [Separator])
      simp only [List.append_assoc, List.singleton_append] at hp2
      refine ⟨?_, hp1⟩
      simp [isWithin, isDescendant, hroot, hp2, hj]

theorem getLast_absPath (s : List GoString) (hne : s ≠ []) (h : Names s) :
    (absPath s).getLast? ≠ some Separator := by
  rcases List.eq_nil_or_concat s with hnil | ⟨s2, x, hsx⟩
  · exact absurd hnil hne
  · subst hsx
    have hx := h x (by simp)
    rw [List.concat_eq_append]
    have e : ∃ pre, absPath (s2 ++ [x]) = pre ++ x := by
      by_cases h2 : s2 = []
      · subst h2; exact ⟨[Separator], by simp [absPath_single]⟩
      · exact ⟨absPath s2 ++ [Separator], by rw [absPath_snoc s2 x h2]; simp⟩
    obtain ⟨pre, hpre⟩ := e
    rw [hpre, List.getLast?_append_of_ne_nil pre hx.1.1]
    intro hc
    exact hx.2 (List.mem_of_getLast?_eq_some hc)

theorem isCanonical_absPath (s : List GoString) (h : Names s) : IsCanonical (absPath s) := by
  by_cases hne : s = []
  · subst hne; exact Or.inl rfl
  · refine Or.inr ⟨rfl, ?_⟩
    show ∀ e ∈ filepath.elements (strings.Join s [Separator]), IsName e
    rw [elements_join s hne (fun x hx => (h x hx).2)]
    exact fun e he => (h e he).1

/-- When the containment check passes, each handler goes on to open the
resolved path. -/
theorem handlers_open_resolved (lower : GoString → GoString) (w : World) (p : GoString)
    (h : filepath.HasPrefix (resolvePath w.AbsBaseDir p) w.AbsBaseDir = true) :
    (DirHandler lower w p).head? = some (Step.osOpen (resolvePath w.AbsBaseDir p)
        (w.openOk (resolvePath w.AbsBaseDir p))) ∧
    (DownloadHandler w p).head? = some (Step.osOpen (resolvePath w.AbsBaseDir p)
        (w.openOk (resolvePath w.AbsBaseDir p))) := by
  unfold resolvePath at h
  constructor
  · unfold DirHandler resolvePath
    simp only [h, Bool.not_true, Bool.false_eq_true, if_false]
    cases ho : w.openOk (filepath.Clean (filepath.Join [w.AbsBaseDir, p]))
    · simp
    · cases hr : w.readdir (filepath.Clean (filepath.Join [w.AbsBaseDir, p])) <;> simp
  · unfold DownloadHandler resolvePath
    simp only [h, Bool.not_true, Bool.false_eq_true, if_false]
    cases ho : w.openOk (filepath.Clean (filepath.Join [w.AbsBaseDir, p])) <;> simp

/-! ## Part II.p: `Rel` between two clean absolute paths -/

theorem takeWhile_name_sep (x r : GoString) (hx : Separator ∉ x) :
    (x ++ Separator :: r).takeWhile (fun c => !os.IsPathSeparator c) = x ∧
      (x ++ Separator :: r).dropWhile (fun c => !os.IsPathSeparator c) = Separator :: r := by
  induction x with
  | nil => simp [os.IsPathSeparator]
  | cons c cs ih =>
    simp only [List.mem_cons, not_or] at hx
    have hc : os.IsPathSeparator c = false := by
      simpa [os.IsPathSeparator] using fun e => hx.1 (Eq.symm e)
    have := ih hx.2
    rw [List.cons_append, List.takeWhile_cons, List.dropWhile_cons]
    simp only [hc, Bool.not_false, if_true, this.1, this.2, and_self]

theorem takeWhile_name (x : GoString) (hx : Separator ∉ x) :
    x.takeWhile (fun c => !os.IsPathSeparator c) = x ∧
      x.dropWhile (fun c => !os.IsPathSeparator c) = [] := by
  induction x with
  | nil => simp
  | cons c cs ih =>
    simp only [List.mem_cons, not_or] at hx
    have hc : os.IsPathSeparator c = false := by
      simpa [os.IsPathSeparator] using fun e => hx.1 (Eq.symm e)
    have := ih hx.2
    rw [List.takeWhile_cons, List.dropWhile_cons]
    simp only [hc, Bool.not_false, if_true, this.1, this.2, and_self]

theorem names_tail (x : GoString) (s : List GoString) (h : Names (x :: s)) : Names s :=
  fun y hy => h y (List.mem_cons_of_mem _ hy)

/-- The first element of a joined path and what follows its separator. -/
theorem join_head (x : GoString) (s : List GoString) (h : Names (x :: s)) :
    (strings.Join (x :: s) [Separator]).takeWhile (fun c => !os.IsPathSeparator c) = x ∧
      ((strings.Join (x :: s) [Separator]).dropWhile (fun c => !os.IsPathSeparator c)).drop 1
        = strings.Join s [Separator] := by
  have hx := (h x (List.mem_cons_self _ _)).2
  cases s with
  | nil =>
    have := takeWhile_name x hx
    rw [show strings.Join [x] [Separator] = x from rfl, this.1, this.2]
    simp [strings.Join]
  | cons b r =>
    have := takeWhile_name_sep x (strings.Join (b :: r) [Separator]) hx
    rw [join_cons x _ (by simp), this.1, this.2]
    simp

theorem relLoop_join :
    ∀ (bs ds : List GoString) (fuel : Nat), Names bs → Names ds → bs.length < fuel →
      ∃ c bs2 ds2 cur, bs = c ++ bs2 ∧ ds = c ++ ds2 ∧ cur ≠ ['.', '.'] ∧
        filepath.relLoop fuel (strings.Join bs [Separator]) (strings.Join ds [Separator])
          = some (cur, strings.Join bs2 [Separator], strings.Join ds2 [Separator])
  | [], ds, fuel, _, _, hf => by
    obtain ⟨k, rfl⟩ : ∃ k, fuel = k + 1 := ⟨fuel - 1, by omega⟩
    exact ⟨[], [], ds, [], rfl, rfl, by simp, by simp [filepath.relLoop, strings.Join]⟩
  | x :: bs, [], fuel, _, _, hf => by
    obtain ⟨k, rfl⟩ : ∃ k, fuel = k + 1 := ⟨fuel - 1, by omega⟩
    exact ⟨[], x :: bs, [], [], rfl, rfl, by simp, by simp [filepath.relLoop, strings.Join]⟩
  | x :: bs, y :: ds, fuel, hb, hd, hf => by
    obtain ⟨k, rfl⟩ : ∃ k, fuel = k + 1 := ⟨fuel - 1, by omega⟩
    have hjb := join_ne_nil (x :: bs) (by simp) hb
    have hjd := join_ne_nil (y :: ds) (by simp) hd
    have hxb := join_head x bs hb
    have hyd := join_head y ds hd
    have hxn := (hb x (List.mem_cons_self _ _)).1
    by_cases hxy : y = x
    · subst hxy
      obtain ⟨c, bs2, ds2, cur, h1, h2, h3, h4⟩ :=
        relLoop_join bs ds k (names_tail _ _ hb) (names_tail _ _ hd)
          (by simp only [List.length_cons] at hf; omega)
      refine ⟨y :: c, bs2, ds2, cur, by simp [h1], by simp [h2], h3, ?_⟩
      rw [filepath.relLoop]
      simp only [hjb, hjd, or_self, if_false, hxb.1, hyd.1, hxb.2, hyd.2, ne_eq,
        not_true_eq_false]
      exact h4
    · refine ⟨[], x :: bs, y :: ds, x, rfl, rfl, hxn.2.2, ?_⟩
      rw [filepath.relLoop]
      simp only [hjb, hjd, or_self, if_false, hxb.1, hyd.1, ne_eq, hxy, not_false_eq_true,
        if_true]

theorem length_le_join (s : List GoString) (h : Names s) :
    s.length ≤ (strings.Join s [Separator]).length := by
  induction s with
  | nil => simp
  | cons a r ih =>
    have ha : 0 < a.length := List.length_pos.2 (h a (List.mem_cons_self _ _)).1.1
    cases r with
    | nil => simp [strings.Join]; omega
    | cons b r2 =>
      have := ih (names_tail _ _ h)
      rw [join_cons a _ (by simp)]
      simp only [List.length_append, List.length_cons] at this ⊢
      omega

theorem count_sep_name (x : GoString) (hx : Separator ∉ x) : x.count Separator = 0 :=
  List.count_eq_zero.2 hx

theorem count_sep_join (s : List GoString) (hne : s ≠ []) (h : Names s) :
    (strings.Join s [Separator]).count Separator = s.length - 1 := by
  induction s with
  | nil => exact absurd rfl hne
  | cons a r ih =>
    have ha := count_sep_name a (h a (List.mem_cons_self _ _)).2
    cases r with
    | nil => simpa [strings.Join] using ha
    | cons b r2 =>
      have := ih (by simp) (names_tail _ _ h)
      rw [join_cons a _ (by simp), List.count_append, List.count_cons_self, ha, this]
      simp

/-- The `..` steps that `Rel` writes, as a joined path. -/
theorem ups_eq_join (n : Nat) :
    ['.', '.'] ++ (List.replicate n [Separator, '.', '.']).flatten
      = strings.Join (List.replicate (n + 1) ['.', '.']) [Separator] := by
  induction n with
  | zero => simp [strings.Join]
  | succ k ih =>
    rw [List.replicate_succ (n := k + 1), join_cons _ _ (by simp), ← ih]
    simp [List.replicate_succ]

theorem normStep_dotdot (st : List GoString) : normStep st ['.', '.'] = st.dropLast := by
  simp [normStep]

theorem foldl_normStep_dotdots (c : List GoString) :
    ∀ r : List GoString,
      (List.replicate r.length ['.', '.']).foldl normStep (c ++ r.reverse) = c
  | [] => by simp
  | x :: r => by
    have ih := foldl_normStep_dotdots c r
    rw [List.length_cons, List.replicate_succ, List.foldl_cons, normStep_dotdot,
      List.reverse_cons, ← List.append_assoc, List.dropLast_concat]
    exact ih

theorem names_replicate_dotdot_free (n : Nat) :
    ∀ s ∈ List.replicate n ['.', '.'], Separator ∉ s := by
  intro s hs
  rw [List.eq_of_mem_replicate hs]
  decide

/-- Walking from `c ++ bs2` along one `..` for each element of `bs2` and then
along `ds2` ends at `c ++ ds2`. -/
theorem resolveElems_rel (c bs2 ds2 : List GoString) (hd : Names ds2) (lead : List GoString)
    (hlead : lead = [] ∨ lead = [[]]) :
    (lead ++ filepath.elements
        (strings.Join (List.replicate bs2.length ['.', '.'] ++ ds2) [Separator])).foldl
      normStep (c ++ bs2) = c ++ ds2 := by
  have hl : ∀ st, lead.foldl normStep st = st := by
    intro st
    rcases hlead with h | h <;> subst h <;> simp [normStep_nil_elem]
  rw [List.foldl_append, hl]
  by_cases hnil : List.replicate bs2.length ['.', '.'] ++ ds2 = []
  · have h1 : bs2 = [] := by
      have := (List.append_eq_nil.1 hnil).1
      simpa using this
    have h2 : ds2 = [] := (List.append_eq_nil.1 hnil).2
    subst h1; subst h2
    simp [strings.Join, filepath.elements, normStep_nil_elem]
  · rw [elements_join _ hnil, List.foldl_append]
    · have := foldl_normStep_dotdots c bs2.reverse
      rw [List.length_reverse, List.reverse_reverse] at this
      rw [this, foldl_normStep_names ds2 c hd]
    · intro s hs
      rcases List.mem_append.1 hs with hs | hs
      · exact names_replicate_dotdot_free _ s hs
      · exact (hd s hs).2

theorem relResult_join (cur : GoString) (bs2 ds2 : List GoString) (hcur : cur ≠ ['.', '.'])
    (hb : Names bs2) (hd : Names ds2) :
    filepath.relResult cur (strings.Join bs2 [Separator]) (strings.Join ds2 [Separator])
      = some (strings.Join (List.replicate bs2.length ['.', '.'] ++ ds2) [Separator]) := by
  unfold filepath.relResult
  rw [if_neg hcur]
  by_cases hbn : bs2 = []
  · subst hbn; simp [strings.Join]
  · have hj := join_ne_nil bs2 hbn hb
    obtain ⟨n, hn⟩ : ∃ n, bs2.length = n + 1 :=
      ⟨bs2.length - 1, by have := List.length_pos.2 hbn; omega⟩
    rw [if_pos hj]
    simp only [count_sep_join bs2 hbn hb, hn, Nat.add_sub_cancel, ups_eq_join]
    by_cases hdn : ds2 = []
    · subst hdn; simp [strings.Join]
    · have hjd := join_ne_nil ds2 hdn hd
      rw [if_pos hjd, join_append _ ds2 (by simp) hdn]

theorem relLoop_absPath (bs ds : List GoString) (hb : Names bs) (hd : Names ds) :
    ∃ c bs2 ds2 cur, bs = c ++ bs2 ∧ ds = c ++ ds2 ∧ cur ≠ ['.', '.'] ∧
      filepath.relLoop ((absPath bs).length + 1) (absPath bs) (absPath ds)
        = some (cur, strings.Join bs2 [Separator], strings.Join ds2 [Separator]) := by
  have hlen : bs.length < (absPath bs).length := by
    have := length_le_join bs hb
    simp only [absPath, List.length_cons]; omega
  obtain ⟨c, bs2, ds2, cur, h1, h2, h3, h4⟩ := relLoop_join bs ds _ hb hd hlen
  refine ⟨c, bs2, ds2, cur, h1, h2, h3, ?_⟩
  rw [filepath.relLoop, ← h4]
  simp [absPath, os.IsPathSeparator]

/-- The function `Rel` between two clean absolute paths returns a path that
leads from the first to the second, with or without a leading separator. -/
theorem Rel_absPath (bs ds : List GoString) (hb : Names bs) (hd : Names ds) :
    ∃ rel, filepath.Rel (absPath bs) (absPath ds) = some rel ∧
      absPath (resolveElems bs rel) = absPath ds ∧
      absPath (resolveElems bs (Separator :: rel)) = absPath ds := by
  unfold filepath.Rel
  simp only [Clean_absPath bs hb, Clean_absPath ds hd]
  by_cases heq : absPath ds = absPath bs
  · refine ⟨['.'], by simp [heq], ?_, ?_⟩
    · rw [heq]; simp [resolveElems, filepath.elements, normStep, Separator]
    · rw [heq]; simp [resolveElems, filepath.elements, normStep, Separator]
  · obtain ⟨c, bs2, ds2, cur, h1, h2, h3, h4⟩ := relLoop_absPath bs ds hb hd
    have hdot : absPath bs ≠ ['.'] := by simp [absPath, Separator]
    have hbs2 : Names bs2 := by rw [h1] at hb; exact names_of_append_right c bs2 hb
    have hds2 : Names ds2 := by rw [h2] at hd; exact names_of_append_right c ds2 hd
    refine ⟨strings.Join (List.replicate bs2.length ['.', '.'] ++ ds2) [Separator], ?_, ?_, ?_⟩
    · rw [if_neg heq]
      simp only [if_neg hdot, h4]
      rw [relResult_join cur bs2 ds2 h3 hbs2 hds2]
      simp [absPath]
    · have := resolveElems_rel c bs2 ds2 hds2 [] (Or.inl rfl)
      rw [List.nil_append] at this
      unfold resolveElems
      rw [h1, this, h2]
    · have := resolveElems_rel c bs2 ds2 hds2 [[]] (Or.inr rfl)
      unfold resolveElems
      rw [h1, h2, ← this]
      simp [filepath.elements]

/-! ## Part II.q: the containment check (C1, C5, C6) -/

/-- What the check does guarantee: a resolved path that does not begin with the
text of the base directory is refused by all three handlers, before any file
is opened or created. -/
theorem handlers_refuse_non_prefix (lower : GoString → GoString) (w : World) (p : GoString)
    (file : Option GoString)
    (h : filepath.HasPrefix (resolvePath w.AbsBaseDir p) w.AbsBaseDir = false) :
    DirHandler lower w p = [outsideBase] ∧ DownloadHandler w p = [outsideBase] ∧
      UploadHandler w ⟨p, file⟩ = [outsideBase] := by
  unfold resolvePath at h
  simp [DirHandler, DownloadHandler, UploadHandler, h]

/-- Claim C1, evaluated at the failing input. With the base directory `/data`, the request
path `/../data2` resolves to the sibling `/data2`, which is neither `/data` nor
under it; the check `HasPrefix` accepts it all the same and each handler goes
on to open or create under `/data2`.  The path `/../../etc/passwd` is refused. -/
theorem C1_sibling_sharing_a_prefix_is_accepted :
    IsCleanAbs "/data".toList ∧
    resolvePath "/data".toList "/../data2".toList = "/data2".toList ∧
    isWithin "/data".toList "/data2".toList = false ∧
    filepath.HasPrefix "/data2".toList "/data".toList = true ∧
    DirHandler asciiToLower siblingWorld "/../data2".toList =
      [Step.osOpen "/data2".toList true, Step.readdir "/data2".toList true,
        Step.executeTemplate [⟨"secret".toList, false, 5⟩] "../data2".toList,
        Step.close "/data2".toList] ∧
    (DownloadHandler siblingWorld "/../data2/secret".toList).head? =
      some (Step.osOpen "/data2/secret".toList true) ∧
    (UploadHandler siblingWorld ⟨"../data2".toList, some "x.txt".toList⟩).take 2 =
      [Step.formFile true, Step.osCreate "/data2/x.txt".toList true] ∧
    DownloadHandler siblingWorld "/../../etc/passwd".toList = [outsideBase] := by
  refine ⟨⟨by decide, by decide⟩, by decide, by decide, by decide, by decide, by decide,
    by decide, by decide⟩

/-- Counterexample to claim C5 as stated. With the base directory `/` and the empty request
path, the check passes and the resolved path is `/`: its last byte is a
separator, and read as a list of segments it holds one empty segment. -/
theorem C5_root_ends_in_separator :
    IsCleanAbs [Separator] ∧
    filepath.HasPrefix (resolvePath [Separator] []) [Separator] = true ∧
    resolvePath [Separator] [] = [Separator] ∧
    (resolvePath [Separator] []).getLast? = some Separator ∧
    filepath.elements (resolvePath [Separator] []).tail = [[]] := by
  refine ⟨⟨by decide, by decide⟩, by decide, by decide, by decide, by decide⟩

/-- Claim C5, as amended. For a clean absolute base directory and a request
path that passes the check, the path the handlers go on to open is the cleaned
join of base and path (the second `Clean` changes nothing); it is the root `/`,
which can only happen when the base is the root, or else an absolute path
whose elements are all proper names: none is empty, `.` or `..`, and the path
does not end in a separator. -/
theorem C5_resolved_path_is_canonical (base p : GoString) (hb : IsCleanAbs base)
    (hc : filepath.HasPrefix (resolvePath base p) base = true) :
    resolvePath base p = filepath.Clean (base ++ Separator :: p) ∧
    IsCanonical (resolvePath base p) ∧
    (resolvePath base p ≠ [Separator] →
      (resolvePath base p).getLast? ≠ some Separator ∧
      ∀ e ∈ filepath.elements (resolvePath base p).tail, IsName e) ∧
    (base ≠ [Separator] → resolvePath base p ≠ [Separator]) ∧
    (∀ (lower : GoString → GoString) (w : World), w.AbsBaseDir = base →
      (DirHandler lower w p).head? =
        some (Step.osOpen (resolvePath base p) (w.openOk (resolvePath base p))) ∧
      (DownloadHandler w p).head? =
        some (Step.osOpen (resolvePath base p) (w.openOk (resolvePath base p)))) := by
  obtain ⟨bs, hbs, rfl⟩ := exists_names_of_isCleanAbs base hb
  have hr : resolvePath (absPath bs) p = absPath (resolveElems bs p) :=
    resolved_absPath bs hbs p
  have hn := names_resolveElems bs hbs p
  have hcan := isCanonical_absPath _ hn
  refine ⟨?_, ?_, ?_, ?_, ?_⟩
  · rw [hr, Clean_absPath_sep bs hbs p]
  · rw [hr]; exact hcan
  · rw [hr]
    intro hroot
    have hne : resolveElems bs p ≠ [] := fun h => hroot (by rw [h]; rfl)
    refine ⟨getLast_absPath _ hne hn, ?_⟩
    rcases hcan with h | h
    · exact absurd h hroot
    · exact h.2
  · intro hbase hroot
    rw [hroot] at hc
    have hbne : bs ≠ [] := fun h => hbase (by rw [h]; rfl)
    have hj := join_ne_nil bs hbne hbs
    cases hjoin : strings.Join bs [Separator] with
    | nil => exact hj hjoin
    | cons a r => simp [filepath.HasPrefix, strings.HasPrefix, absPath, hjoin] at hc
  · intro lower w hw
    rw [← hw] at hc ⊢
    exact handlers_open_resolved lower w p hc

/-- Witness for claim C5 as amended: the request path `/a/./b/../c//` under
`/data` resolves to `/data/a/c`. -/
theorem C5_resolved_path_is_canonical_witness :
    IsCanonical (resolvePath "/data".toList "/a/./b/../c//".toList) ∧
      resolvePath "/data".toList "/a/./b/../c//".toList = "/data/a/c".toList :=
  ⟨(C5_resolved_path_is_canonical "/data".toList "/a/./b/../c//".toList
      ⟨by decide, by decide⟩ (by decide)).2.1, by decide⟩

/-- Claim C6. A request path without a `..` element never overrides the base: for a
clean absolute base directory, the join of base and path is the base or a
descendant of it, the containment check accepts the resolved path, and the
handlers go on to open it rather than refuse it.  This covers the empty path,
paths starting with a separator, and paths with `.` or empty elements. -/
theorem C6_no_dotdot_stays_under_base (base p : GoString) (hb : IsCleanAbs base)
    (hp : ['.', '.'] ∉ filepath.elements p) :
    isWithin base (filepath.Join [base, p]) = true ∧
    isWithin base (resolvePath base p) = true ∧
    filepath.HasPrefix (resolvePath base p) base = true ∧
    (∀ (lower : GoString → GoString) (w : World) (file : Option GoString),
      w.AbsBaseDir = base →
        DirHandler lower w p ≠ [outsideBase] ∧ DownloadHandler w p ≠ [outsideBase] ∧
        UploadHandler w ⟨p, file⟩ ≠ [outsideBase]) := by
  obtain ⟨bs, hbs, rfl⟩ := exists_names_of_isCleanAbs base hb
  have hr : resolvePath (absPath bs) p = absPath (resolveElems bs p) :=
    resolved_absPath bs hbs p
  obtain ⟨es, hes⟩ := foldl_normStep_no_dotdot (filepath.elements p) bs hp
  have hres : resolveElems bs p = bs ++ es := hes
  have hn : Names (bs ++ es) := hres ▸ names_resolveElems bs hbs p
  have hw := isWithin_absPath_append bs es hn
  have hpre : filepath.HasPrefix (resolvePath (absPath bs) p) (absPath bs) = true := by
    rw [hr, hres]; exact hw.2
  refine ⟨?_, ?_, hpre, ?_⟩
  · rw [Join_absPath bs hbs p, hres]; exact hw.1
  · rw [hr, hres]; exact hw.1
  · intro lower w file hbase
    rw [← hbase] at hpre
    have ho := handlers_open_resolved lower w p hpre
    refine ⟨?_, ?_, ?_⟩
    · intro h; rw [h] at ho; simp [outsideBase] at ho
    · intro h; rw [h] at ho; simp [outsideBase] at ho
    · unfold resolvePath at hpre
      unfold UploadHandler
      simp only [hpre, Bool.not_true, Bool.false_eq_true, if_false]
      cases file with
      | none => simp
      | some f => simp only; split_ifs <;> simp

/-- Witness for claim C6: the absolute-looking path `/etc/./passwd` under `/data`
stays under `/data`. -/
theorem C6_no_dotdot_stays_under_base_witness :
    isWithin "/data".toList (filepath.Join ["/data".toList, "/etc/./passwd".toList]) = true ∧
      filepath.Join ["/data".toList, "/etc/./passwd".toList] = "/data/etc/passwd".toList :=
  ⟨(C6_no_dotdot_stays_under_base "/data".toList "/etc/./passwd".toList
      ⟨by decide, by decide⟩ (by decide)).1, by decide⟩

/-! ## Part II.r: the upload destination (C2) -/

/-- Claim C7. For a clean absolute base directory and a target directory accepted by
the containment check of `UploadHandler`, `Rel` succeeds, and the path
parameter of the redirect location `/dir/` + `Rel(base, dir)`, with the
separator the router keeps in front of it or without, resolves under the
listing operation to the target directory again; the handler sends that
redirect whenever the destination file could be created. -/
theorem C7_redirect_leads_back (base d : GoString) (hb : IsCleanAbs base)
    (hc : filepath.HasPrefix (resolvePath base d) base = true) :
    ∃ rel, filepath.Rel base (resolvePath base d) = some rel ∧
      resolvePath base (Separator :: rel) = resolvePath base d ∧
      resolvePath base rel = resolvePath base d ∧
      (∀ (w : World) (f : GoString), w.AbsBaseDir = base →
        w.createOk (uploadDestination (resolvePath base d) f) = true →
        Step.redirect ("/dir/".toList ++ rel) StatusFound ∈ UploadHandler w ⟨d, some f⟩) := by
  obtain ⟨bs, hbs, rfl⟩ := exists_names_of_isCleanAbs base hb
  have hr : resolvePath (absPath bs) d = absPath (resolveElems bs d) :=
    resolved_absPath bs hbs d
  have hn := names_resolveElems bs hbs d
  obtain ⟨rel, h1, h2, h3⟩ := Rel_absPath bs (resolveElems bs d) hbs hn
  refine ⟨rel, by rw [hr]; exact h1, ?_, ?_, ?_⟩
  · rw [hr, ← h3]; exact resolved_absPath bs hbs _
  · rw [hr, ← h2]; exact resolved_absPath bs hbs _
  · intro w f hw hcreate
    rw [← hr] at h1
    rw [← hw] at hc hcreate h1
    unfold resolvePath at hc hcreate h1
    unfold UploadHandler
    simp [hc, hcreate, h1]

/-- Witness for claim C7: the upload into `sub/../docs/` under `/data` redirects to `/dir/docs`, whose
parameter `/docs` resolves to `/data/docs`, the directory written to. -/
theorem C7_redirect_leads_back_witness :
    ∃ rel, filepath.Rel "/data".toList (resolvePath "/data".toList "sub/../docs/".toList)
        = some rel ∧
      resolvePath "/data".toList (Separator :: rel)
        = resolvePath "/data".toList "sub/../docs/".toList ∧
      resolvePath "/data".toList rel = resolvePath "/data".toList "sub/../docs/".toList ∧
      (∀ (w : World) (f : GoString), w.AbsBaseDir = "/data".toList →
        w.createOk (uploadDestination (resolvePath "/data".toList "sub/../docs/".toList) f)
          = true →
        Step.redirect ("/dir/".toList ++ rel) StatusFound
          ∈ UploadHandler w ⟨"sub/../docs/".toList, some f⟩) :=
  C7_redirect_leads_back "/data".toList "sub/../docs/".toList ⟨by decide, by decide⟩
    (by decide)

/-! ## Part II.t: the outcome of an upload (C8, C10) -/

/-- Counterexample to claim C8 as stated. The destination is created and the copy breaks off:
the handler still answers with the redirect and with no client error. -/
theorem C8_broken_copy_still_redirects :
    UploadHandler brokenCopyWorld ⟨"sub".toList, some "a.txt".toList⟩ =
      [Step.formFile true, Step.osCreate "/data/sub/a.txt".toList true,
        Step.copyToFile "/data/sub/a.txt".toList false,
        Step.redirect "/dir/sub".toList StatusFound,
        Step.close "/data/sub/a.txt".toList, Step.close "a.txt".toList] ∧
    answersRedirect (UploadHandler brokenCopyWorld ⟨"sub".toList, some "a.txt".toList⟩) ∧
    ¬ answersError (UploadHandler brokenCopyWorld ⟨"sub".toList, some "a.txt".toList⟩) := by
  have h : UploadHandler brokenCopyWorld ⟨"sub".toList, some "a.txt".toList⟩ =
      [Step.formFile true, Step.osCreate "/data/sub/a.txt".toList true,
        Step.copyToFile "/data/sub/a.txt".toList false,
        Step.redirect "/dir/sub".toList StatusFound,
        Step.close "/data/sub/a.txt".toList, Step.close "a.txt".toList] := by decide
  refine ⟨h, ?_, ?_⟩
  · rw [h]; exact ⟨"/dir/sub".toList, by decide⟩
  · rw [h]; rintro ⟨msg, hm⟩; simp at hm

/-- Claim C8, as amended. For an upload whose target directory passed the
containment check and whose form file was extracted: when creating the
destination fails the answer is a client error and no redirect; when it
succeeds the copy is attempted and the answer is the redirect and no client
error, whatever the copy did.  The redirect is sent exactly when the
destination was created. -/
theorem C8_upload_outcome (w : World) (d f : GoString)
    (hc : filepath.HasPrefix (resolvePath w.AbsBaseDir d) w.AbsBaseDir = true) :
    (w.createOk (uploadDestination (resolvePath w.AbsBaseDir d) f) = false →
      answersError (UploadHandler w ⟨d, some f⟩) ∧
      ¬ answersRedirect (UploadHandler w ⟨d, some f⟩)) ∧
    (w.createOk (uploadDestination (resolvePath w.AbsBaseDir d) f) = true →
      Step.copyToFile (uploadDestination (resolvePath w.AbsBaseDir d) f) w.copyOk
        ∈ UploadHandler w ⟨d, some f⟩ ∧
      answersRedirect (UploadHandler w ⟨d, some f⟩) ∧
      ¬ answersError (UploadHandler w ⟨d, some f⟩)) ∧
    (answersRedirect (UploadHandler w ⟨d, some f⟩) ↔
      w.createOk (uploadDestination (resolvePath w.AbsBaseDir d) f) = true) := by
  unfold resolvePath at hc ⊢
  have hfail : w.createOk (uploadDestination (filepath.Clean (filepath.Join [w.AbsBaseDir, d])) f)
      = false → answersError (UploadHandler w ⟨d, some f⟩) ∧
        ¬ answersRedirect (UploadHandler w ⟨d, some f⟩) := by
    intro h
    unfold answersError answersRedirect UploadHandler
    simp [hc, h]
  have hok : w.createOk (uploadDestination (filepath.Clean (filepath.Join [w.AbsBaseDir, d])) f)
      = true →
      Step.copyToFile (uploadDestination (filepath.Clean (filepath.Join [w.AbsBaseDir, d])) f)
          w.copyOk ∈ UploadHandler w ⟨d, some f⟩ ∧
        answersRedirect (UploadHandler w ⟨d, some f⟩) ∧
        ¬ answersError (UploadHandler w ⟨d, some f⟩) := by
    intro h
    unfold answersError answersRedirect UploadHandler
    simp [hc, h]
  refine ⟨hfail, hok, ?_⟩
  constructor
  · intro hr
    cases hcr : w.createOk (uploadDestination (filepath.Clean (filepath.Join [w.AbsBaseDir, d])) f)
    · exact absurd hr (hfail hcr).2
    · rfl
  · intro h; exact (hok h).2.1

/-- Witness for claim C8 as amended: in the world where the copy breaks off the
upload is still answered with the redirect. -/
theorem C8_upload_outcome_witness :
    answersRedirect (UploadHandler brokenCopyWorld ⟨"sub".toList, some "a.txt".toList⟩) ↔
      brokenCopyWorld.createOk
        (uploadDestination (resolvePath brokenCopyWorld.AbsBaseDir "sub".toList) "a.txt".toList)
        = true :=
  (C8_upload_outcome brokenCopyWorld "sub".toList "a.txt".toList (by decide)).2.2

/-- Claim C10, evaluated at the failing input. An upload without a file part: `FormFile` fails,
the handler writes the client error and, instead of returning, runs on into
the use of the nil file and file header.  This is so for every upload that
passes the containment check and has no file part. -/
theorem C10_missing_file_branch_runs_on :
    UploadHandler siblingWorld ⟨"sub".toList, none⟩ =
      [Step.formFile false,
        Step.httpError "Error occured while trying to upload file" StatusBadRequest,
        Step.nilDereference] ∧
    (∀ (w : World) (d : GoString),
      filepath.HasPrefix (resolvePath w.AbsBaseDir d) w.AbsBaseDir = true →
      UploadHandler w ⟨d, none⟩ =
        [Step.formFile false,
          Step.httpError "Error occured while trying to upload file" StatusBadRequest,
          Step.nilDereference]) := by
  refine ⟨by decide, ?_⟩
  intro w d h
  unfold resolvePath at h
  simp [UploadHandler, h]

end GoShare
